import Mathlib

/-!
Verification of the CAF (Chunk Archive Format) serializer, packing pipeline,
object-store path sanitization and HTTP input validation of the jackal-js-worker
repository, as a shallow embedding.

Buffers are modelled as `List Nat` (byte values), JS strings as Lean `String`.
`JSON.stringify` / `JSON.parse` (platform builtins used by the code) are
modelled at the character level, specialised to the CAF index schema the
serializer emits; `Buffer.from(s, 'utf8')` / `buf.toString('utf8')` are
modelled by an explicit UTF-8 encoder/decoder.
-/

namespace CAF

/-- Metadata of one archive member, `CAFFileMetadata` of src/src/cafSerializer.ts:
`start_byte` inclusive, `end_byte` exclusive offsets into the payload region. -/
structure CAFFileMetadata where
  start_byte : Nat
  end_byte : Nat
deriving DecidableEq

/-- Decimal digit character for `n < 10` (code point 48 + n). -/
def digitChar (n : Nat) : Char := Char.ofNat (48 + n)

/-- Digit accumulator for `natToChars`; the fuel argument only serves
termination and is always sufficient at the call site. -/
def natToCharsGo : Nat → Nat → List Char → List Char
  | 0, _, acc => acc
  | fuel + 1, n, acc =>
    if n < 10 then digitChar n :: acc
    else natToCharsGo fuel (n / 10) (digitChar (n % 10) :: acc)

/-- Decimal representation of a natural number, most significant digit first,
matching the output of `JSON.stringify` on a nonnegative integral number. -/
def natToChars (n : Nat) : List Char := natToCharsGo (n + 1) n []

/-- Numeric value of a decimal digit character. -/
def charVal (c : Char) : Nat := c.toNat - 48

/-- Accumulating decimal-number scanner: consumes a maximal run of digits. -/
def parseNatGo (acc : Nat) : List Char → Nat × List Char
  | [] => (acc, [])
  | c :: rest => if c.isDigit then parseNatGo (acc * 10 + charVal c) rest else (acc, c :: rest)

/-- Parses a nonnegative decimal integer (at least one digit), as `JSON.parse`
does for the number positions of the CAF index schema. -/
def parseNat : List Char → Option (Nat × List Char)
  | [] => none
  | c :: rest => if c.isDigit then some (parseNatGo 0 (c :: rest)) else none

/-- Whether a character list does not begin with a decimal digit (so a maximal
digit run ends right before it). -/
def headNotDigit : List Char → Bool
  | [] => true
  | c :: _ => !c.isDigit

/-- Lower-case hexadecimal digit character for `n < 16`. -/
def hexChar (n : Nat) : Char := if n < 10 then Char.ofNat (48 + n) else Char.ofNat (87 + n)

/-- Escaping of one code unit exactly as `JSON.stringify` quotes string values:
quote and backslash get a backslash escape, the named control escapes are used
for 8, 9, 10, 12, 13, the remaining control characters become `\u00xx`, and
every other character is emitted verbatim. -/
def escapeChar (c : Char) : List Char :=
  if c = '"' then ['\\', '"']
  else if c = '\\' then ['\\', '\\']
  else if c.toNat = 8 then ['\\', 'b']
  else if c.toNat = 9 then ['\\', 't']
  else if c.toNat = 10 then ['\\', 'n']
  else if c.toNat = 12 then ['\\', 'f']
  else if c.toNat = 13 then ['\\', 'r']
  else if c.toNat < 32 then ['\\', 'u', '0', '0', hexChar (c.toNat / 16), hexChar (c.toNat % 16)]
  else [c]

/-- A JSON string literal (with quotes) for `s`, as emitted by `JSON.stringify`. -/
def encodeJsonString (s : String) : List Char :=
  '"' :: s.toList.flatMap escapeChar ++ ['"']

/-- Hexadecimal digit test (both cases), for `\uXXXX` escapes. -/
def isHexDigit (c : Char) : Bool :=
  c.isDigit || (97 ≤ c.toNat && c.toNat ≤ 102) || (65 ≤ c.toNat && c.toNat ≤ 70)

/-- Numeric value of a hexadecimal digit character. -/
def hexVal (c : Char) : Nat :=
  if c.isDigit then c.toNat - 48 else if 97 ≤ c.toNat then c.toNat - 87 else c.toNat - 55

/-- JSON string-body parser (after the opening quote), as `JSON.parse` reads a
string: stops at the closing quote, understands the escape sequences, and
rejects raw control characters. -/
def parseStringBody : List Char → Option (List Char × List Char)
  | [] => none
  | c :: rest =>
    if c = '"' then some ([], rest)
    else if c = '\\' then
      match rest with
      | [] => none
      | e :: rest2 =>
        if e = '"' then (parseStringBody rest2).map (fun r => ('"' :: r.1, r.2))
        else if e = '\\' then (parseStringBody rest2).map (fun r => ('\\' :: r.1, r.2))
        else if e = '/' then (parseStringBody rest2).map (fun r => ('/' :: r.1, r.2))
        else if e = 'b' then (parseStringBody rest2).map (fun r => (Char.ofNat 8 :: r.1, r.2))
        else if e = 't' then (parseStringBody rest2).map (fun r => (Char.ofNat 9 :: r.1, r.2))
        else if e = 'n' then (parseStringBody rest2).map (fun r => (Char.ofNat 10 :: r.1, r.2))
        else if e = 'f' then (parseStringBody rest2).map (fun r => (Char.ofNat 12 :: r.1, r.2))
        else if e = 'r' then (parseStringBody rest2).map (fun r => (Char.ofNat 13 :: r.1, r.2))
        else if e = 'u' then
          match rest2 with
          | h1 :: h2 :: h3 :: h4 :: rest3 =>
            if isHexDigit h1 && isHexDigit h2 && isHexDigit h3 && isHexDigit h4 then
              (parseStringBody rest3).map (fun r =>
                (Char.ofNat (hexVal h1 * 4096 + hexVal h2 * 256 + hexVal h3 * 16 + hexVal h4) :: r.1, r.2))
            else none
          | _ => none
        else none
    else if c.toNat < 32 then none
    else (parseStringBody rest).map (fun r => (c :: r.1, r.2))

/-- A quoted JSON string, returning the decoded string and the rest. -/
def parseJsonString (l : List Char) : Option (String × List Char) :=
  match l with
  | '"' :: rest => (parseStringBody rest).map (fun r => (String.mk r.1, r.2))
  | _ => none

/-- `JSON.stringify` of one `CAFFileMetadata` value. -/
def encodeMetadata (m : CAFFileMetadata) : List Char :=
  "\x7b\"start_byte\":".toList ++ natToChars m.start_byte
    ++ ",\"end_byte\":".toList ++ natToChars m.end_byte ++ ['\x7d']

/-- Matches the literal character sequence `lit` at the front of the input. -/
def expectChars : List Char → List Char → Option (List Char)
  | [], l => some l
  | _ :: _, [] => none
  | c :: cs, x :: xs => if x = c then expectChars cs xs else none

/-- Parses one serialized `CAFFileMetadata` object. -/
def parseMetadata (l : List Char) : Option (CAFFileMetadata × List Char) :=
  match expectChars "\x7b\"start_byte\":".toList l with
  | none => none
  | some l1 =>
    match parseNat l1 with
    | none => none
    | some (s, l2) =>
      match expectChars ",\"end_byte\":".toList l2 with
      | none => none
      | some l3 =>
        match parseNat l3 with
        | none => none
        | some (e, l4) =>
          match l4 with
          | '\x7d' :: l5 => some (⟨s, e⟩, l5)
          | _ => none

/-- `JSON.stringify` of the entries of the `files` record, in key order,
comma separated (`JSON.stringify` emits no whitespace). -/
def encodeFilesEntries : List (String × CAFFileMetadata) → List Char
  | [] => []
  | (k, v) :: rest =>
    encodeJsonString k ++ ':' :: encodeMetadata v
      ++ (if rest.isEmpty then [] else ',' :: encodeFilesEntries rest)

/-- `JSON.stringify` of the whole `files` record. -/
def encodeFiles (files : List (String × CAFFileMetadata)) : List Char :=
  '\x7b' :: encodeFilesEntries files ++ ['\x7d']

/-- Parses a nonempty comma-separated run of `files` entries up to the closing
brace. The fuel argument only serves termination; one unit is spent per entry. -/
def parseEntriesGo : Nat → List Char → Option (List (String × CAFFileMetadata) × List Char)
  | 0, _ => none
  | fuel + 1, l =>
    match parseJsonString l with
    | none => none
    | some (k, l1) =>
      match l1 with
      | ':' :: l2 =>
        match parseMetadata l2 with
        | none => none
        | some (m, l3) =>
          match l3 with
          | ',' :: l4 => (parseEntriesGo fuel l4).map (fun r => ((k, m) :: r.1, r.2))
          | '\x7d' :: l4 => some ([(k, m)], l4)
          | _ => none
      | _ => none

/-- Parses the `files` record object. -/
def parseFiles (l : List Char) : Option (List (String × CAFFileMetadata) × List Char) :=
  match l with
  | '\x7b' :: rest =>
    match rest with
    | '\x7d' :: rest2 => some ([], rest2)
    | _ => parseEntriesGo (rest.length + 1) rest
  | _ => none

/-- `JSON.stringify` of the CAF index object
(finalize builds `format_version` then `files`, in that order). -/
def encodeIndexJson (formatVersion : String) (files : List (String × CAFFileMetadata)) : List Char :=
  "\x7b\"format_version\":".toList ++ encodeJsonString formatVersion
    ++ ",\"files\":".toList ++ encodeFiles files ++ ['\x7d']

/-- `JSON.parse` specialised to the CAF index schema produced by the serializer:
the whole input must be consumed. -/
def parseIndex (l : List Char) : Option (String × List (String × CAFFileMetadata)) :=
  match expectChars "\x7b\"format_version\":".toList l with
  | none => none
  | some l1 =>
    match parseJsonString l1 with
    | none => none
    | some (v, l2) =>
      match expectChars ",\"files\":".toList l2 with
      | none => none
      | some l3 =>
        match parseFiles l3 with
        | none => none
        | some (files, l4) =>
          match l4 with
          | ['\x7d'] => some (v, files)
          | _ => none

/-- UTF-8 encoding of one character (`Buffer.from(s, 'utf8')`), written with
division and remainder instead of shifts and masks. -/
def utf8EncodeChar (c : Char) : List Nat :=
  let v := c.toNat
  if v < 128 then [v]
  else if v < 2048 then [192 + v / 64, 128 + v % 64]
  else if v < 65536 then [224 + v / 4096, 128 + v / 64 % 64, 128 + v % 64]
  else [240 + v / 262144, 128 + v / 4096 % 64, 128 + v / 64 % 64, 128 + v % 64]

/-- UTF-8 encoding of a character list. -/
def utf8Encode (s : List Char) : List Nat := s.flatMap utf8EncodeChar

/-- Strict UTF-8 decoding of one code point per step; the fuel argument only
serves termination (one unit per decoded character) and is always sufficient at
the call site. Continuation bytes are read with `List.getD` and consumed with
`List.drop`. -/
def utf8DecodeGo : Nat → List Nat → Option (List Char)
  | 0, _ => none
  | fuel + 1, l =>
    match l with
    | [] => some []
    | b :: rest =>
      if b < 128 then (utf8DecodeGo fuel rest).map (fun cs => Char.ofNat b :: cs)
      else if b < 192 then none
      else if b < 224 then
        if 1 ≤ rest.length then
          let b1 := rest.getD 0 0
          if 128 ≤ b1 && b1 < 192 then
            let v := (b - 192) * 64 + (b1 - 128)
            if 128 ≤ v then
              (utf8DecodeGo fuel (rest.drop 1)).map (fun cs => Char.ofNat v :: cs)
            else none
          else none
        else none
      else if b < 240 then
        if 2 ≤ rest.length then
          let b1 := rest.getD 0 0
          let b2 := rest.getD 1 0
          if (128 ≤ b1 && b1 < 192) && (128 ≤ b2 && b2 < 192) then
            let v := (b - 224) * 4096 + (b1 - 128) * 64 + (b2 - 128)
            if 2048 ≤ v && (v < 55296 || 57344 ≤ v) then
              (utf8DecodeGo fuel (rest.drop 2)).map (fun cs => Char.ofNat v :: cs)
            else none
          else none
        else none
      else if b < 248 then
        if 3 ≤ rest.length then
          let b1 := rest.getD 0 0
          let b2 := rest.getD 1 0
          let b3 := rest.getD 2 0
          if (128 ≤ b1 && b1 < 192) && ((128 ≤ b2 && b2 < 192) && (128 ≤ b3 && b3 < 192)) then
            let v := (b - 240) * 262144 + (b1 - 128) * 4096 + (b2 - 128) * 64 + (b3 - 128)
            if 65536 ≤ v && v < 1114112 then
              (utf8DecodeGo fuel (rest.drop 3)).map (fun cs => Char.ofNat v :: cs)
            else none
          else none
        else none
      else none

/-- Strict UTF-8 decoding (`buf.toString('utf8')` on well-formed input;
malformed sequences are rejected where Node would substitute U+FFFD). -/
def utf8Decode (l : List Nat) : Option (List Char) := utf8DecodeGo (l.length + 1) l

/-- The 4 footer bytes `footerBuffer.writeUInt32LE(indexSize, 0)` produces
(the caller checks the range; `writeUInt32LE` throws beyond 2^32 - 1). -/
def writeUInt32LE (n : Nat) : List Nat :=
  [n % 256, n / 256 % 256, n / 65536 % 256, n / 16777216 % 256]

/-- `footerBuffer.readUInt32LE(0)` on (at least) 4 bytes. -/
def readUInt32LEAt (l : List Nat) : Nat :=
  l.getD 0 0 + l.getD 1 0 * 256 + l.getD 2 0 * 65536 + l.getD 3 0 * 16777216

/-- Lookup in the in-memory `fileIndex` record (JS object keyed by string). -/
def recordGet (m : List (String × CAFFileMetadata)) (k : String) : Option CAFFileMetadata :=
  match m with
  | [] => none
  | (k', v) :: rest => if k' = k then some v else recordGet rest k

/-- `this.fileIndex[filePath] = md`: a JS string-keyed object updates an
existing key in place and appends a new key at the end of insertion order. -/
def recordSet (m : List (String × CAFFileMetadata)) (k : String) (v : CAFFileMetadata) :
    List (String × CAFFileMetadata) :=
  match m with
  | [] => [(k, v)]
  | (k', v') :: rest => if k' = k then (k, v) :: rest else (k', v') :: recordSet rest k v

/-- State of `CAFSerializer` (src/src/cafSerializer.ts): current payload offset,
in-memory index, bytes written to the output stream so far, and the byte budget
(the constructor converts `maxChunkSizeGB * 1024 * 1024 * 1024`). -/
structure CAFSerializer where
  currentPosition : Nat
  fileIndex : List (String × CAFFileMetadata)
  payload : List Nat
  maxChunkSize : Nat
deriving DecidableEq

/-- A fresh serializer: position 0, empty index, empty output file. -/
def CAFSerializer.new (maxChunkSize : Nat) : CAFSerializer :=
  ⟨0, [], [], maxChunkSize⟩

/-- `CAFSerializer.addFile`: rejects (returns the untouched state and `false`)
when `currentPosition + fileData.length > maxChunkSize`; otherwise writes the
bytes, records `start_byte`/`end_byte` under the member path and advances. -/
def CAFSerializer.addFile (s : CAFSerializer) (filePath : String) (fileData : List Nat) :
    CAFSerializer × Bool :=
  if s.currentPosition + fileData.length > s.maxChunkSize then (s, false)
  else
    ({ s with
        payload := s.payload ++ fileData,
        fileIndex := recordSet s.fileIndex filePath
          ⟨s.currentPosition, s.currentPosition + fileData.length⟩,
        currentPosition := s.currentPosition + fileData.length }, true)

/-- `CAFSerializer.addFileFromStream`: the capacity check uses the declared
`contentLength`; the stream's actual bytes are piped to the output, and on the
stream's `end` event the index entry and the new position are computed from
`contentLength` alone — the code never compares `bytesReceived` with
`contentLength`. -/
def CAFSerializer.addFileFromStream (s : CAFSerializer) (filePath : String)
    (streamBytes : List Nat) (contentLength : Nat) : CAFSerializer × Bool :=
  if s.currentPosition + contentLength > s.maxChunkSize then (s, false)
  else
    ({ s with
        payload := s.payload ++ streamBytes,
        fileIndex := recordSet s.fileIndex filePath
          ⟨s.currentPosition, s.currentPosition + contentLength⟩,
        currentPosition := s.currentPosition + contentLength }, true)

/-- `CAFSerializer.finalize`: appends the UTF-8 JSON index and the 4-byte
little-endian footer holding the index byte length, and closes the file.
`writeUInt32LE` throws when the index size does not fit an unsigned 32-bit
integer, modelled by `none`. -/
def CAFSerializer.finalize (s : CAFSerializer) : Option (List Nat) :=
  let indexBuffer := utf8Encode (encodeIndexJson "1.0" s.fileIndex)
  if indexBuffer.length < 4294967296 then
    some (s.payload ++ indexBuffer ++ writeUInt32LE indexBuffer.length)
  else none

/-- Parsed CAF index, `CAFIndex` of src/src/cafSerializer.ts. -/
structure CAFIndex where
  format_version : String
  files : List (String × CAFFileMetadata)
deriving DecidableEq

/-- `CAFDeserializer.loadIndex`: stats the file, reads the last 4 bytes as a
little-endian u32 `indexSize`, reads `indexSize` bytes at
`fileSize - 4 - indexSize` and `JSON.parse`s their UTF-8 decoding. A file
shorter than 4 bytes or an `indexSize` reaching past the front makes the
positional read throw (`none`). No validation of `format_version` or of the
member ranges is performed. -/
def loadIndex (file : List Nat) : Option CAFIndex :=
  let fileSize := file.length
  if fileSize < 4 then none
  else
    let indexSize := readUInt32LEAt (file.drop (fileSize - 4))
    if fileSize - 4 < indexSize then none
    else
      match utf8Decode ((file.drop (fileSize - 4 - indexSize)).take indexSize) with
      | none => none
      | some chars =>
        match parseIndex chars with
        | none => none
        | some (v, files) => some ⟨v, files⟩

/-- `CAFDeserializer.getFileList` on a loaded index. -/
def CAFIndex.getFileList (idx : CAFIndex) : List String := idx.files.map Prod.fst

/-- `CAFDeserializer.extractFile` on a loaded index: positional read of
`end_byte - start_byte` bytes at offset `start_byte`. -/
def extractFile (file : List Nat) (idx : CAFIndex) (filePath : String) : Option (List Nat) :=
  match recordGet idx.files filePath with
  | none => none
  | some m => some ((file.drop m.start_byte).take (m.end_byte - m.start_byte))

/-- Sequential `addFile` calls for a list of `(member_path, bytes)` pairs;
the flag is `true` when every call returned `true`. -/
def addFiles (s : CAFSerializer) : List (String × List Nat) → CAFSerializer × Bool
  | [] => (s, true)
  | (p, d) :: rest =>
    let r := s.addFile p d
    let r2 := addFiles r.1 rest
    (r2.1, r.2 && r2.2)

/-- The index the serializer records for `members` appended in order starting
at payload offset `base`. -/
def buildIndex (base : Nat) : List (String × List Nat) → List (String × CAFFileMetadata)
  | [] => []
  | (p, d) :: rest => (p, ⟨base, base + d.length⟩) :: buildIndex (base + d.length) rest

/-- Total byte length of a list of members. -/
def totalLen (members : List (String × List Nat)) : Nat :=
  (members.map (fun m => m.2.length)).sum

/-- Concatenation of the members' bytes in insertion order. -/
def concatData (members : List (String × List Nat)) : List Nat :=
  members.flatMap Prod.snd

/-- One append call against the writer, for stating writer invariants. -/
inductive AppendOp where
  | buffer (filePath : String) (fileData : List Nat)
  | stream (filePath : String) (streamBytes : List Nat) (contentLength : Nat)

/-- The writer state after an append call (the returned flag dropped). -/
def applyOp (s : CAFSerializer) : AppendOp → CAFSerializer
  | .buffer p d => (s.addFile p d).1
  | .stream p bytes len => (s.addFileFromStream p bytes len).1

/-- The writer state after a sequence of append calls. -/
def runOps (s : CAFSerializer) (ops : List AppendOp) : CAFSerializer :=
  ops.foldl applyOp s

/-- An append op whose stream delivers exactly its declared length
(`buffer` appends always do). -/
def AppendOp.honest : AppendOp → Prop
  | .buffer _ _ => True
  | .stream _ bytes len => bytes.length = len

end CAF

namespace Main

/-- `CAF_MAX_SIZE_BYTES` of src/src/main.ts: `1.75 * 1024 * 1024 * 1024`. -/
def CAF_MAX_SIZE_BYTES : Nat := 1879048192

/-- The `prefetch` constant of src/src/main.ts, also used as the batch ceiling
for `pendingMessages`. -/
def prefetch : Nat := 1000

/-- A pending queue message tracked by the batch processor; `msgId` stands for
the opaque amqp delivery handle used by `ack`/`nack`. -/
structure PendingMessage where
  msgId : Nat
  taskId : String
  filePath : String
deriving DecidableEq

/-- Externally observable actions of the batch processor, in program order. -/
inductive Event where
  | downloadStream (filePath : String)
  | startTimer
  | upload (bundleId : String) (content : List Nat)
  | insert (filePath taskId bundleId jsWorkerId : String) (ok : Bool)
  | ack (msgId : Nat)
  | nack (msgId : Nat)
deriving DecidableEq

/-- Recognizer for ack events. -/
def Event.isAck : Event → Bool
  | .ack _ => true
  | _ => false

/-- Recognizer for nack events. -/
def Event.isNack : Event → Bool
  | .nack _ => true
  | _ => false

/-- Mutable state of `CAFBatchProcessor`: the in-flight writer, the pending
list, and whether the inactivity timer is armed. -/
structure ProcState where
  currentCAF : Option CAF.CAFSerializer
  pendingMessages : List PendingMessage
  timerActive : Bool
deriving DecidableEq

/-- `CAFBatchProcessor.finalizeCurrentCAF`: returns immediately when there is
no writer or no pending message; otherwise it copies the writer and the pending
list, clears `currentCAF`, `pendingMessages` and the inactivity timer, then
finalizes, uploads, and — on success — walks the batch issuing each catalog
insert (failures are caught and only logged) followed immediately by that
message's `ack`. A finalize or upload error nacks every message of the batch.
`uploadOk` and `insertOk` are the outcomes of the external calls;
`cafFileName` is the `batch_<Date.now()>.caf` name computed inside. -/
def finalizeCurrentCAF (st : ProcState) (uploadOk : Bool) (insertOk : String → String → Bool)
    (cafFileName workerId : String) : ProcState × List Event :=
  match st.currentCAF with
  | none => (st, [])
  | some caf =>
    if st.pendingMessages.isEmpty then (st, [])
    else
      let msgs := st.pendingMessages
      let cleared : ProcState := ⟨none, [], false⟩
      match caf.finalize with
      | none => (cleared, msgs.map (fun m => Event.nack m.msgId))
      | some content =>
        if uploadOk then
          (cleared,
            Event.upload cafFileName content ::
              msgs.flatMap (fun m =>
                [Event.insert m.filePath m.taskId cafFileName workerId
                    (insertOk m.taskId m.filePath),
                  Event.ack m.msgId]))
        else (cleared, msgs.map (fun m => Event.nack m.msgId))

/-- `CAFBatchProcessor.processMessage`, success path (message parses and the
object-store streams open): downloads the stream, lazily creates the writer,
(re)starts the inactivity timer, and tries `addFileFromStream`. On `true` the
message joins the pending list; on `false` (budget exhausted) the predecessor
container is finalized, a fresh writer is opened, the source stream is
re-obtained (`stream2`/`len2` — the first stream is consumed) and appended (the
result is ignored), and the message joins the new pending list. Finally the
batch-ceiling check may finalize again. `batchNameA`/`batchNameB` are the batch
names computed by each potential finalization. -/
def processMessage (st : ProcState) (msg : PendingMessage)
    (stream1 : List Nat) (len1 : Nat) (stream2 : List Nat) (len2 : Nat)
    (uploadOk : Bool) (insertOk : String → String → Bool)
    (batchNameA batchNameB workerId : String) : ProcState × List Event :=
  let caf0 := match st.currentCAF with
    | none => CAF.CAFSerializer.new CAF_MAX_SIZE_BYTES
    | some c => c
  let cafFileName := msg.taskId ++ "/" ++ msg.filePath
  let ev0 : List Event := [Event.downloadStream msg.filePath, Event.startTimer]
  let r1 := caf0.addFileFromStream cafFileName stream1 len1
  let afterAppend : ProcState × List Event :=
    if r1.2 then
      ({ currentCAF := some r1.1, pendingMessages := st.pendingMessages ++ [msg],
          timerActive := true }, ev0)
    else
      let stFin := finalizeCurrentCAF ⟨some caf0, st.pendingMessages, true⟩
        uploadOk insertOk batchNameA workerId
      let r2 := (CAF.CAFSerializer.new CAF_MAX_SIZE_BYTES).addFileFromStream
        cafFileName stream2 len2
      ({ currentCAF := some r2.1,
          pendingMessages := stFin.1.pendingMessages ++ [msg],
          timerActive := true },
        ev0 ++ stFin.2
          ++ [Event.startTimer, Event.downloadStream msg.filePath, Event.startTimer])
  if afterAppend.1.pendingMessages.length ≥ prefetch then
    let stFin2 := finalizeCurrentCAF afterAppend.1 uploadOk insertOk batchNameB workerId
    ({ stFin2.1 with timerActive := true }, afterAppend.2 ++ stFin2.2 ++ [Event.startTimer])
  else afterAppend

end Main

namespace Database

/-- The replacement table of `sanitizeS3Path` (src/src/database.ts), in source
order; every pattern is a single character. -/
def replacements : List (Char × String) :=
  [('+', "PLUS"), ('=', "EQUALS"), (':', "COLON"), ('\\', "BACKSLASH"),
    ('\x7b', "LBRACE"), ('\x7d', "RBRACE"), ('^', "CARET"), ('%', "PERCENT"),
    (Char.ofNat 96, "BACKTICK"), ('[', "LBRACKET"), (']', "RBRACKET"), ('"', "QUOTE"),
    ('~', "TILDE"), ('|', "PIPE"), ('<', "LT"), ('>', "GT"), (';', "SEMICOLON"),
    (',', "COMMA"), ('?', "QUESTION"), ('*', "ASTERISK"), ('&', "AMPERSAND"),
    ('$', "DOLLAR"), ('@', "AT")]

/-- One pass `result.split(oldChar).join(newStr)`: with a single-character
separator this rewrites every occurrence of that character. -/
def replaceCharBy (oldChar : Char) (newStr : String) (l : List Char) : List Char :=
  l.flatMap (fun c => if c = oldChar then newStr.toList else [c])

/-- `sanitizeS3Path`: the passes are applied sequentially in table order. -/
def sanitizeS3Path (path : String) : String :=
  String.mk (replacements.foldl (fun r p => replaceCharBy p.1 p.2 r) path.toList)

/-- The S3 `GetObjectCommand` key issued by `WasabiClient.downloadFile`
(first statement of the method: `sanitizeS3Path(filePath)`). -/
def downloadFileKey (filePath : String) : String := sanitizeS3Path filePath

/-- The S3 `GetObjectCommand` key issued by `WasabiClient.downloadFileStream`. -/
def downloadFileStreamKey (filePath : String) : String := sanitizeS3Path filePath

end Database

namespace WebServer

/-- The test `/^[a-zA-Z0-9_-]+$/.test(taskId)`. -/
def taskIdMatches (taskId : String) : Bool :=
  !taskId.isEmpty && taskId.toList.all (fun c => c.isAlphanum || c == '_' || c == '-')

/-- JS `String.prototype.includes` for a literal pattern. -/
def listContainsSub (pat : List Char) : List Char → Bool
  | [] => pat.isEmpty
  | c :: rest => pat.isPrefixOf (c :: rest) || listContainsSub pat rest

/-- `filePath.includes(sub)` on Lean strings. -/
def stringIncludes (s sub : String) : Bool := listContainsSub sub.toList s.toList

/-- The test `filePath.startsWith('/')`, read at the character level. -/
def startsWithSlash (s : String) : Bool :=
  match s.toList with
  | c :: _ => c == '/'
  | [] => false

/-- The filePath rejection test of the data endpoints:
`filePath.includes('..') || filePath.includes('~') || filePath.startsWith('/')`. -/
def filePathRejected (filePath : String) : Bool :=
  stringIncludes filePath ".." || stringIncludes filePath "~" || startsWithSlash filePath

/-- Outcome of a data endpoint up to the catalog: either an early `reject`
response (no catalog lookup, no container download), or the catalog lookup
with the validated parameters. -/
inductive RouteResult where
  | reject (status : Nat) (error : String)
  | lookup (taskId filePath : String)
deriving DecidableEq

/-- The validation block shared verbatim by `/file`, `/file-info` and
`/file-proof` in `WebServer.setupRoutes`: absent (empty) parameters, then the
taskId regex, then the filePath test, in that order. -/
def validateParams (taskId filePath : String) : Option (Nat × String) :=
  if taskId.isEmpty || filePath.isEmpty then
    some (400, "Missing required parameters: taskId and filePath")
  else if !taskIdMatches taskId then some (400, "Invalid taskId format")
  else if filePathRejected filePath then some (400, "Invalid filePath format")
  else none

/-- `GET /file/:taskId/:filePath(*)` up to the catalog lookup. -/
def fileRoute (taskId filePath : String) : RouteResult :=
  match validateParams taskId filePath with
  | some (s, e) => .reject s e
  | none => .lookup taskId filePath

/-- `GET /file-info/:taskId/:filePath(*)` up to the catalog lookup. -/
def fileInfoRoute (taskId filePath : String) : RouteResult :=
  match validateParams taskId filePath with
  | some (s, e) => .reject s e
  | none => .lookup taskId filePath

/-- `GET /file-proof/:taskId/:filePath(*)` up to the catalog lookup. -/
def fileProofRoute (taskId filePath : String) : RouteResult :=
  match validateParams taskId filePath with
  | some (s, e) => .reject s e
  | none => .lookup taskId filePath

end WebServer

namespace CAF

theorem char_toNat_ofNat {n : Nat} (h : n.isValidChar) : (Char.ofNat n).toNat = n := by
  rw [Char.ofNat, dif_pos h]
  rfl

theorem expectChars_append (lit rest : List Char) : expectChars lit (lit ++ rest) = some rest := by
  induction lit with
  | nil => rfl
  | cons c cs ih => simp [expectChars, ih]

theorem digitChar_isDigit {k : Nat} (h : k < 10) : (digitChar k).isDigit = true := by
  interval_cases k <;> decide

theorem charVal_digitChar {k : Nat} (h : k < 10) : charVal (digitChar k) = k := by
  interval_cases k <;> decide

theorem natToCharsGo_acc (fuel n : Nat) : ∀ acc : List Char,
    natToCharsGo fuel n acc = natToCharsGo fuel n [] ++ acc := by
  induction fuel generalizing n with
  | zero => intro acc; rfl
  | succ f ih =>
    intro acc
    by_cases h : n < 10
    · simp [natToCharsGo, h]
    · simp only [natToCharsGo, if_neg h]
      rw [ih (n / 10) (digitChar (n % 10) :: acc), ih (n / 10) [digitChar (n % 10)]]
      simp

theorem natToCharsGo_ne_nil (fuel n : Nat) (acc : List Char) (h : acc ≠ [] ∨ 0 < fuel) :
    natToCharsGo fuel n acc ≠ [] := by
  induction fuel generalizing n acc with
  | zero =>
    rcases h with h | h
    · exact h
    · omega
  | succ f ih =>
    by_cases h10 : n < 10
    · simp [natToCharsGo, h10]
    · simp only [natToCharsGo, if_neg h10]
      exact ih (n / 10) (digitChar (n % 10) :: acc) (Or.inl (by simp))

theorem natToChars_ne_nil (n : Nat) : natToChars n ≠ [] :=
  natToCharsGo_ne_nil (n + 1) n [] (Or.inr (by omega))

theorem natToCharsGo_digits (fuel n : Nat) (acc : List Char)
    (hacc : ∀ c ∈ acc, c.isDigit = true) :
    ∀ c ∈ natToCharsGo fuel n acc, c.isDigit = true := by
  induction fuel generalizing n acc with
  | zero => exact hacc
  | succ f ih =>
    by_cases h10 : n < 10
    · simp only [natToCharsGo, if_pos h10]
      intro c hc
      rcases List.mem_cons.mp hc with hc | hc
      · exact hc ▸ digitChar_isDigit h10
      · exact hacc c hc
    · simp only [natToCharsGo, if_neg h10]
      refine ih (n / 10) (digitChar (n % 10) :: acc) ?_
      intro c hc
      rcases List.mem_cons.mp hc with hc | hc
      · exact hc ▸ digitChar_isDigit (Nat.mod_lt _ (by omega))
      · exact hacc c hc

theorem natToChars_digits (n : Nat) : ∀ c ∈ natToChars n, c.isDigit = true :=
  natToCharsGo_digits (n + 1) n [] (by intro c hc; cases hc)

theorem natToCharsGo_foldl (fuel : Nat) : ∀ n, n < 10 ^ fuel → ∀ a : Nat,
    (natToCharsGo fuel n []).foldl (fun acc c => acc * 10 + charVal c) a =
      a * 10 ^ (natToCharsGo fuel n []).length + n := by
  induction fuel with
  | zero => intro n hn a; interval_cases n; simp [natToCharsGo]
  | succ f ih =>
    intro n hn a
    by_cases h10 : n < 10
    · simp [natToCharsGo, if_pos h10, charVal_digitChar h10]
    · simp only [natToCharsGo, if_neg h10]
      rw [natToCharsGo_acc f (n / 10) [digitChar (n % 10)]]
      have hdiv : n / 10 < 10 ^ f := by
        have : (10 : Nat) ^ (f + 1) = 10 ^ f * 10 := by ring
        rw [this] at hn
        exact Nat.div_lt_of_lt_mul (by omega)
      rw [List.foldl_append, ih (n / 10) hdiv a]
      rw [List.length_append]
      simp only [List.foldl_cons, List.foldl_nil, List.length_singleton]
      rw [charVal_digitChar (Nat.mod_lt _ (by omega))]
      rw [pow_succ]
      have hmod : n / 10 * 10 + n % 10 = n := by omega
      set L := (natToCharsGo f (n / 10) []).length
      calc (a * 10 ^ L + n / 10) * 10 + n % 10
          = a * (10 ^ L * 10) + (n / 10 * 10 + n % 10) := by ring
        _ = a * (10 ^ L * 10) + n := by rw [hmod]

theorem natToChars_foldl (n : Nat) (a : Nat) :
    (natToChars n).foldl (fun acc c => acc * 10 + charVal c) a =
      a * 10 ^ (natToChars n).length + n := by
  have hn : n < 10 ^ (n + 1) := by
    calc n < n + 1 := by omega
      _ ≤ 10 ^ (n + 1) := by
        exact le_trans (Nat.le_of_lt (Nat.lt_two_pow (n + 1)))
          (Nat.pow_le_pow_left (by omega) (n + 1))
  exact natToCharsGo_foldl (n + 1) n hn a

theorem parseNatGo_digits_append (ds : List Char) (hd : ∀ c ∈ ds, c.isDigit = true)
    (rest : List Char) (hr : headNotDigit rest = true) : ∀ acc : Nat,
    parseNatGo acc (ds ++ rest) =
      (ds.foldl (fun a c => a * 10 + charVal c) acc, rest) := by
  induction ds with
  | nil =>
    intro acc
    cases rest with
    | nil => rfl
    | cons c cs =>
      simp only [headNotDigit, Bool.not_eq_true'] at hr
      simp [parseNatGo, hr]
  | cons c cs ih =>
    intro acc
    have hc : c.isDigit = true := hd c (by simp)
    simp only [List.cons_append, parseNatGo, hc, if_true, List.foldl_cons]
    exact ih (fun x hx => hd x (by simp [hx])) (acc * 10 + charVal c)

theorem parseNat_natToChars_append (n : Nat) (rest : List Char)
    (hr : headNotDigit rest = true) :
    parseNat (natToChars n ++ rest) = some (n, rest) := by
  cases h : natToChars n with
  | nil => exact absurd h (natToChars_ne_nil n)
  | cons c cs =>
    have hd : ∀ x ∈ natToChars n, x.isDigit = true := natToChars_digits n
    have hc : c.isDigit = true := hd c (by rw [h]; simp)
    simp only [List.cons_append, parseNat, hc, if_true]
    have := parseNatGo_digits_append (natToChars n) hd rest hr 0
    rw [h] at this
    simp only [List.cons_append] at this
    rw [this]
    have hval := natToChars_foldl n 0
    rw [h] at hval
    simp only [Nat.zero_mul, Nat.zero_add] at hval
    rw [hval]

end CAF

namespace CAF

theorem isHexDigit_hexChar {k : Nat} (h : k < 16) : isHexDigit (hexChar k) = true := by
  interval_cases k <;> decide

theorem hexVal_hexChar {k : Nat} (h : k < 16) : hexVal (hexChar k) = k := by
  interval_cases k <;> decide

theorem parseStringBody_quote (l : List Char) : parseStringBody ('"' :: l) = some ([], l) := by
  conv_lhs => rw [parseStringBody.eq_def]
  rfl

theorem parseStringBody_esc_quote (l : List Char) :
    parseStringBody ('\\' :: '"' :: l) = (parseStringBody l).map (fun r => ('"' :: r.1, r.2)) := by
  conv_lhs => rw [parseStringBody.eq_def]
  rfl

theorem parseStringBody_esc_backslash (l : List Char) :
    parseStringBody ('\\' :: '\\' :: l) =
      (parseStringBody l).map (fun r => ('\\' :: r.1, r.2)) := by
  conv_lhs => rw [parseStringBody.eq_def]
  rfl

theorem parseStringBody_esc_b (l : List Char) :
    parseStringBody ('\\' :: 'b' :: l) =
      (parseStringBody l).map (fun r => (Char.ofNat 8 :: r.1, r.2)) := by
  conv_lhs => rw [parseStringBody.eq_def]
  rfl

theorem parseStringBody_esc_t (l : List Char) :
    parseStringBody ('\\' :: 't' :: l) =
      (parseStringBody l).map (fun r => (Char.ofNat 9 :: r.1, r.2)) := by
  conv_lhs => rw [parseStringBody.eq_def]
  rfl

theorem parseStringBody_esc_n (l : List Char) :
    parseStringBody ('\\' :: 'n' :: l) =
      (parseStringBody l).map (fun r => (Char.ofNat 10 :: r.1, r.2)) := by
  conv_lhs => rw [parseStringBody.eq_def]
  rfl

theorem parseStringBody_esc_f (l : List Char) :
    parseStringBody ('\\' :: 'f' :: l) =
      (parseStringBody l).map (fun r => (Char.ofNat 12 :: r.1, r.2)) := by
  conv_lhs => rw [parseStringBody.eq_def]
  rfl

theorem parseStringBody_esc_r (l : List Char) :
    parseStringBody ('\\' :: 'r' :: l) =
      (parseStringBody l).map (fun r => (Char.ofNat 13 :: r.1, r.2)) := by
  conv_lhs => rw [parseStringBody.eq_def]
  rfl

theorem parseStringBody_esc_u (h1 h2 h3 h4 : Char) (l : List Char)
    (hh : (isHexDigit h1 && isHexDigit h2 && isHexDigit h3 && isHexDigit h4) = true) :
    parseStringBody ('\\' :: 'u' :: h1 :: h2 :: h3 :: h4 :: l) =
      (parseStringBody l).map (fun r =>
        (Char.ofNat (hexVal h1 * 4096 + hexVal h2 * 256 + hexVal h3 * 16 + hexVal h4)
          :: r.1, r.2)) := by
  conv_lhs => rw [parseStringBody.eq_def]
  simp [hh]

theorem parseStringBody_default (c : Char) (l : List Char) (h1 : ¬c = '"') (h2 : ¬c = '\\')
    (h3 : ¬c.toNat < 32) :
    parseStringBody (c :: l) = (parseStringBody l).map (fun r => (c :: r.1, r.2)) := by
  conv_lhs => rw [parseStringBody.eq_def]
  simp [h1, h2, h3]

theorem parseStringBody_escape (s : List Char) (rest : List Char) :
    parseStringBody (s.flatMap escapeChar ++ ('"' :: rest)) = some (s, rest) := by
  induction s with
  | nil => simpa using parseStringBody_quote rest
  | cons c cs ih =>
    rw [List.flatMap_cons, List.append_assoc]
    by_cases h1 : c = '"'
    · subst h1
      rw [show escapeChar '"' = ['\\', '"'] from rfl]
      simp only [List.cons_append, List.nil_append]
      rw [parseStringBody_esc_quote, ih]
      rfl
    · by_cases h2 : c = '\\'
      · subst h2
        rw [show escapeChar '\\' = ['\\', '\\'] from rfl]
        simp only [List.cons_append, List.nil_append]
        rw [parseStringBody_esc_backslash, ih]
        rfl
      · by_cases h3 : c.toNat = 8
        · have he : escapeChar c = ['\\', 'b'] := by simp [escapeChar, h1, h2, h3]
          have hc : Char.ofNat 8 = c := by rw [← h3, Char.ofNat_toNat]
          rw [he]
          simp only [List.cons_append, List.nil_append]
          rw [parseStringBody_esc_b, ih, hc]
          rfl
        · by_cases h4 : c.toNat = 9
          · have he : escapeChar c = ['\\', 't'] := by simp [escapeChar, h1, h2, h3, h4]
            have hc : Char.ofNat 9 = c := by rw [← h4, Char.ofNat_toNat]
            rw [he]
            simp only [List.cons_append, List.nil_append]
            rw [parseStringBody_esc_t, ih, hc]
            rfl
          · by_cases h5 : c.toNat = 10
            · have he : escapeChar c = ['\\', 'n'] := by simp [escapeChar, h1, h2, h3, h4, h5]
              have hc : Char.ofNat 10 = c := by rw [← h5, Char.ofNat_toNat]
              rw [he]
              simp only [List.cons_append, List.nil_append]
              rw [parseStringBody_esc_n, ih, hc]
              rfl
            · by_cases h6 : c.toNat = 12
              · have he : escapeChar c = ['\\', 'f'] := by
                  simp [escapeChar, h1, h2, h3, h4, h5, h6]
                have hc : Char.ofNat 12 = c := by rw [← h6, Char.ofNat_toNat]
                rw [he]
                simp only [List.cons_append, List.nil_append]
                rw [parseStringBody_esc_f, ih, hc]
                rfl
              · by_cases h7 : c.toNat = 13
                · have he : escapeChar c = ['\\', 'r'] := by
                    simp [escapeChar, h1, h2, h3, h4, h5, h6, h7]
                  have hc : Char.ofNat 13 = c := by rw [← h7, Char.ofNat_toNat]
                  rw [he]
                  simp only [List.cons_append, List.nil_append]
                  rw [parseStringBody_esc_r, ih, hc]
                  rfl
                · by_cases h8 : c.toNat < 32
                  · have he : escapeChar c =
                        ['\\', 'u', '0', '0', hexChar (c.toNat / 16), hexChar (c.toNat % 16)] := by
                      simp [escapeChar, h1, h2, h3, h4, h5, h6, h7, h8]
                    have hh : (isHexDigit '0' && isHexDigit '0'
                        && isHexDigit (hexChar (c.toNat / 16))
                        && isHexDigit (hexChar (c.toNat % 16))) = true := by
                      rw [isHexDigit_hexChar (by omega), isHexDigit_hexChar (by omega)]
                      decide
                    have hval : hexVal '0' * 4096 + hexVal '0' * 256
                        + hexVal (hexChar (c.toNat / 16)) * 16 + hexVal (hexChar (c.toNat % 16))
                        = c.toNat := by
                      rw [hexVal_hexChar (by omega), hexVal_hexChar (by omega)]
                      have h0 : hexVal '0' = 0 := by decide
                      rw [h0]
                      omega
                    rw [he]
                    simp only [List.cons_append, List.nil_append]
                    rw [parseStringBody_esc_u _ _ _ _ _ hh, ih, hval, Char.ofNat_toNat]
                    rfl
                  · have he : escapeChar c = [c] := by
                      simp [escapeChar, h1, h2, h3, h4, h5, h6, h7, h8]
                    rw [he]
                    simp only [List.cons_append, List.nil_append]
                    rw [parseStringBody_default c _ h1 h2 h8, ih]
                    rfl

theorem string_mk_toList (s : String) : String.mk s.toList = s := rfl

theorem parseJsonString_encode (s : String) (rest : List Char) :
    parseJsonString (encodeJsonString s ++ rest) = some (s, rest) := by
  rw [encodeJsonString]
  simp only [List.cons_append, List.append_assoc, List.singleton_append, List.nil_append]
  rw [parseJsonString]
  rw [parseStringBody_escape s.toList rest]
  simp [string_mk_toList]

end CAF

namespace CAF

theorem headNotDigit_endByteLit (l : List Char) :
    headNotDigit (",\"end_byte\":".toList ++ l) = true := rfl

theorem headNotDigit_rbrace (l : List Char) : headNotDigit ('\x7d' :: l) = true := rfl

theorem parseMetadata_encode (m : CAFFileMetadata) (rest : List Char) :
    parseMetadata (encodeMetadata m ++ rest) = some (m, rest) := by
  rw [encodeMetadata]
  simp only [List.append_assoc, List.cons_append, List.nil_append, List.singleton_append]
  rw [parseMetadata]
  rw [expectChars_append]
  simp only []
  rw [parseNat_natToChars_append _ _ (headNotDigit_endByteLit _)]
  simp only []
  rw [expectChars_append]
  simp only []
  rw [parseNat_natToChars_append _ _ (headNotDigit_rbrace _)]
  rfl

end CAF

namespace CAF

theorem encodeJsonString_length_pos (k : String) : 0 < (encodeJsonString k).length := by
  rw [encodeJsonString]
  simp

theorem encodeFilesEntries_length (files : List (String × CAFFileMetadata)) :
    files.length ≤ (encodeFilesEntries files).length := by
  induction files with
  | nil => simp [encodeFilesEntries]
  | cons kv tail ih =>
    obtain ⟨k, v⟩ := kv
    rw [encodeFilesEntries]
    by_cases ht : tail.isEmpty
    · have h0 := encodeJsonString_length_pos k
      simp [List.length_append, List.isEmpty_iff.mp ht]
      omega
    · have h0 := encodeJsonString_length_pos k
      simp [List.length_append, ht]
      omega

theorem parseEntriesGo_encode (files : List (String × CAFFileMetadata)) :
    ∀ (fuel : Nat) (rest : List Char), files ≠ [] → files.length ≤ fuel →
    parseEntriesGo fuel (encodeFilesEntries files ++ ('\x7d' :: rest)) = some (files, rest) := by
  induction files with
  | nil => intro fuel rest h _; exact absurd rfl h
  | cons kv tail ih =>
    intro fuel rest _ hlen
    obtain ⟨k, v⟩ := kv
    cases fuel with
    | zero => simp at hlen
    | succ f =>
      rw [encodeFilesEntries]
      by_cases ht : tail.isEmpty
      · rw [List.isEmpty_iff.mp ht]
        rw [if_pos (by rfl)]
        simp only [List.append_assoc, List.cons_append, List.nil_append, List.append_nil]
        rw [parseEntriesGo]
        rw [parseJsonString_encode]
        simp only []
        rw [parseMetadata_encode]
        rfl
      · rw [if_neg ht]
        simp only [List.append_assoc, List.cons_append, List.nil_append]
        rw [parseEntriesGo]
        rw [parseJsonString_encode]
        simp only []
        rw [parseMetadata_encode]
        simp only []
        rw [ih f rest (by simpa [List.isEmpty_iff] using ht) (by simp at hlen; omega)]
        rfl

end CAF

namespace CAF

theorem parseFiles_encode (files : List (String × CAFFileMetadata)) (rest : List Char) :
    parseFiles (encodeFiles files ++ rest) = some (files, rest) := by
  rw [encodeFiles]
  cases files with
  | nil => rfl
  | cons kv tail =>
    obtain ⟨k, v⟩ := kv
    have hcs : encodeFilesEntries ((k, v) :: tail) =
        '"' :: (k.toList.flatMap escapeChar ++ ['"'] ++ (':' :: encodeMetadata v
          ++ (if tail.isEmpty then [] else ',' :: encodeFilesEntries tail))) := by
      rw [encodeFilesEntries, encodeJsonString]
      simp [List.append_assoc]
    simp only [List.cons_append, List.append_assoc]
    rw [hcs]
    rw [parseFiles]
    simp only [List.cons_append]
    have hlen : ((k, v) :: tail).length ≤
        ('"' :: (k.toList.flatMap escapeChar ++ ['"'] ++ (':' :: encodeMetadata v
          ++ (if tail.isEmpty then [] else ',' :: encodeFilesEntries tail)))
          ++ '\x7d' :: rest).length + 1 := by
      have h1 := encodeFilesEntries_length ((k, v) :: tail)
      rw [hcs] at h1
      simp only [List.length_append, List.length_cons] at h1 ⊢
      omega
    have := parseEntriesGo_encode ((k, v) :: tail)
      (('"' :: (k.toList.flatMap escapeChar ++ ['"'] ++ (':' :: encodeMetadata v
        ++ (if tail.isEmpty then [] else ',' :: encodeFilesEntries tail)))
        ++ '\x7d' :: rest).length + 1)
      rest (by simp) hlen
    rw [hcs] at this
    simp only [List.cons_append, List.append_assoc] at this ⊢
    exact this
    intro l5 h
    simp at h

end CAF

namespace CAF

theorem parseIndex_encode (v : String) (files : List (String × CAFFileMetadata)) :
    parseIndex (encodeIndexJson v files) = some (v, files) := by
  rw [encodeIndexJson]
  simp only [List.append_assoc, List.cons_append, List.nil_append, List.singleton_append]
  rw [parseIndex]
  rw [expectChars_append]
  simp only []
  rw [parseJsonString_encode]
  simp only []
  rw [expectChars_append]
  simp only []
  rw [parseFiles_encode]
  rfl

end CAF

namespace CAF

theorem utf8DecodeGo_one (f b : Nat) (l : List Nat) (h : b < 128) :
    utf8DecodeGo (f + 1) (b :: l) = (utf8DecodeGo f l).map (fun cs => Char.ofNat b :: cs) := by
  simp [utf8DecodeGo, h]

theorem utf8DecodeGo_two (f b b1 : Nat) (l : List Nat)
    (hb : 192 ≤ b) (hb' : b < 224) (h1 : 128 ≤ b1) (h1' : b1 < 192)
    (hv : 128 ≤ (b - 192) * 64 + (b1 - 128)) :
    utf8DecodeGo (f + 1) (b :: b1 :: l) =
      (utf8DecodeGo f l).map (fun cs => Char.ofNat ((b - 192) * 64 + (b1 - 128)) :: cs) := by
  have hh1 : ¬b < 128 := by omega
  have hh2 : ¬b < 192 := by omega
  simp [utf8DecodeGo, hh1, hh2, hb', h1, h1', hv]

theorem utf8DecodeGo_three (f b b1 b2 : Nat) (l : List Nat)
    (hb : 224 ≤ b) (hb' : b < 240) (h1 : 128 ≤ b1) (h1' : b1 < 192)
    (h2 : 128 ≤ b2) (h2' : b2 < 192)
    (hv : 2048 ≤ (b - 224) * 4096 + (b1 - 128) * 64 + (b2 - 128))
    (hs : (b - 224) * 4096 + (b1 - 128) * 64 + (b2 - 128) < 55296
      ∨ 57344 ≤ (b - 224) * 4096 + (b1 - 128) * 64 + (b2 - 128)) :
    utf8DecodeGo (f + 1) (b :: b1 :: b2 :: l) =
      (utf8DecodeGo f l).map
        (fun cs => Char.ofNat ((b - 224) * 4096 + (b1 - 128) * 64 + (b2 - 128)) :: cs) := by
  have hh1 : ¬b < 128 := by omega
  have hh2 : ¬b < 192 := by omega
  have hh3 : ¬b < 224 := by omega
  simp [utf8DecodeGo, hh1, hh2, hh3, hb', h1, h1', h2, h2', hv, hs]

theorem utf8DecodeGo_four (f b b1 b2 b3 : Nat) (l : List Nat)
    (hb : 240 ≤ b) (hb' : b < 248) (h1 : 128 ≤ b1) (h1' : b1 < 192)
    (h2 : 128 ≤ b2) (h2' : b2 < 192) (h3 : 128 ≤ b3) (h3' : b3 < 192)
    (hv : 65536 ≤ (b - 240) * 262144 + (b1 - 128) * 4096 + (b2 - 128) * 64 + (b3 - 128))
    (hv' : (b - 240) * 262144 + (b1 - 128) * 4096 + (b2 - 128) * 64 + (b3 - 128) < 1114112) :
    utf8DecodeGo (f + 1) (b :: b1 :: b2 :: b3 :: l) =
      (utf8DecodeGo f l).map
        (fun cs => Char.ofNat
          ((b - 240) * 262144 + (b1 - 128) * 4096 + (b2 - 128) * 64 + (b3 - 128)) :: cs) := by
  have hh1 : ¬b < 128 := by omega
  have hh2 : ¬b < 192 := by omega
  have hh3 : ¬b < 224 := by omega
  have hh4 : ¬b < 240 := by omega
  simp [utf8DecodeGo, hh1, hh2, hh3, hh4, hb', h1, h1', h2, h2', h3, h3', hv, hv']

theorem char_valid_cases (c : Char) : c.toNat < 55296 ∨ (57343 < c.toNat ∧ c.toNat < 1114112) :=
  c.valid

theorem utf8DecodeGo_encodeChar (c : Char) (f : Nat) (rest : List Nat) :
    utf8DecodeGo (f + 1) (utf8EncodeChar c ++ rest) =
      (utf8DecodeGo f rest).map (fun cs => c :: cs) := by
  have hvalid := char_valid_cases c
  rw [utf8EncodeChar]
  by_cases hl1 : c.toNat < 128
  · simp only [if_pos hl1, List.cons_append, List.nil_append]
    rw [utf8DecodeGo_one _ _ _ hl1, Char.ofNat_toNat]
  · by_cases hl2 : c.toNat < 2048
    · simp only [if_neg hl1, if_pos hl2, List.cons_append, List.nil_append]
      rw [utf8DecodeGo_two f (192 + c.toNat / 64) (128 + c.toNat % 64) rest
        (by omega) (by omega) (by omega) (by omega) (by omega)]
      have hrec : (192 + c.toNat / 64 - 192) * 64 + (128 + c.toNat % 64 - 128) = c.toNat := by
        omega
      rw [hrec, Char.ofNat_toNat]
    · by_cases hl3 : c.toNat < 65536
      · simp only [if_neg hl1, if_neg hl2, if_pos hl3, List.cons_append, List.nil_append]
        have hrec : (224 + c.toNat / 4096 - 224) * 4096 + (128 + c.toNat / 64 % 64 - 128) * 64
            + (128 + c.toNat % 64 - 128) = c.toNat := by omega
        rw [utf8DecodeGo_three f (224 + c.toNat / 4096) (128 + c.toNat / 64 % 64)
          (128 + c.toNat % 64) rest (by omega) (by omega) (by omega) (by omega)
          (by omega) (by omega) (by omega) (by omega)]
        rw [hrec, Char.ofNat_toNat]
      · simp only [if_neg hl1, if_neg hl2, if_neg hl3, List.cons_append, List.nil_append]
        have hrec : (240 + c.toNat / 262144 - 240) * 262144 + (128 + c.toNat / 4096 % 64 - 128)
            * 4096 + (128 + c.toNat / 64 % 64 - 128) * 64 + (128 + c.toNat % 64 - 128)
            = c.toNat := by omega
        rw [utf8DecodeGo_four f (240 + c.toNat / 262144) (128 + c.toNat / 4096 % 64)
          (128 + c.toNat / 64 % 64) (128 + c.toNat % 64) rest (by omega) (by omega)
          (by omega) (by omega) (by omega) (by omega) (by omega) (by omega)
          (by omega) (by omega)]
        rw [hrec, Char.ofNat_toNat]

theorem utf8DecodeGo_encode (s : List Char) :
    ∀ fuel, s.length < fuel → utf8DecodeGo fuel (utf8Encode s) = some s := by
  induction s with
  | nil =>
    intro fuel h
    cases fuel with
    | zero => omega
    | succ f => simp [utf8Encode, utf8DecodeGo]
  | cons c cs ih =>
    intro fuel h
    cases fuel with
    | zero => simp at h
    | succ f =>
      rw [utf8Encode, List.flatMap_cons]
      rw [show cs.flatMap utf8EncodeChar = utf8Encode cs from rfl]
      rw [utf8DecodeGo_encodeChar c f (utf8Encode cs)]
      rw [ih f (by simp at h; omega)]
      rfl

theorem utf8EncodeChar_length_pos (c : Char) : 0 < (utf8EncodeChar c).length := by
  rw [utf8EncodeChar]
  split_ifs <;> simp

theorem utf8Encode_length_ge (s : List Char) : s.length ≤ (utf8Encode s).length := by
  induction s with
  | nil => simp [utf8Encode]
  | cons c cs ih =>
    rw [utf8Encode, List.flatMap_cons]
    rw [show cs.flatMap utf8EncodeChar = utf8Encode cs from rfl]
    have := utf8EncodeChar_length_pos c
    simp only [List.length_append, List.length_cons]
    omega

theorem utf8Decode_encode (s : List Char) : utf8Decode (utf8Encode s) = some s := by
  rw [utf8Decode]
  exact utf8DecodeGo_encode s _ (by have := utf8Encode_length_ge s; omega)

end CAF

namespace CAF

theorem readUInt32LEAt_writeUInt32LE (n : Nat) (h : n < 4294967296) :
    readUInt32LEAt (writeUInt32LE n) = n := by
  simp only [readUInt32LEAt, writeUInt32LE, List.getD_cons_zero, List.getD_cons_succ]
  omega

theorem writeUInt32LE_length (n : Nat) : (writeUInt32LE n).length = 4 := rfl

/-- The file produced by `finalize` parses back to exactly the in-memory index,
whatever the `format_version` string and the recorded entries are: `loadIndex`
performs no validation beyond the footer arithmetic and JSON well-formedness. -/
theorem loadIndex_encoded (payload : List Nat) (v : String)
    (files : List (String × CAFFileMetadata))
    (h : (utf8Encode (encodeIndexJson v files)).length < 4294967296) :
    loadIndex (payload ++ utf8Encode (encodeIndexJson v files)
        ++ writeUInt32LE (utf8Encode (encodeIndexJson v files)).length) =
      some ⟨v, files⟩ := by
  set ib := utf8Encode (encodeIndexJson v files) with hib
  have hlen : (payload ++ ib ++ writeUInt32LE ib.length).length
      = payload.length + ib.length + 4 := by
    simp only [List.length_append, writeUInt32LE_length]
  rw [loadIndex]
  rw [hlen]
  rw [if_neg (by omega)]
  have hdropfooter : (payload ++ ib ++ writeUInt32LE ib.length).drop
      (payload.length + ib.length + 4 - 4) = writeUInt32LE ib.length := by
    have h4 : payload.length + ib.length + 4 - 4 = (payload ++ ib).length := by simp
    rw [h4, List.drop_left]
  rw [hdropfooter]
  rw [readUInt32LEAt_writeUInt32LE _ h]
  rw [if_neg (by omega)]
  have hdropidx : (payload ++ ib ++ writeUInt32LE ib.length).drop
      (payload.length + ib.length + 4 - 4 - ib.length) = ib ++ writeUInt32LE ib.length := by
    have h4 : payload.length + ib.length + 4 - 4 - ib.length = payload.length := by omega
    rw [h4, List.append_assoc, List.drop_left]
  rw [hdropidx]
  rw [List.take_left]
  rw [utf8Decode_encode]
  simp only []
  rw [parseIndex_encode]

theorem recordSet_fresh (m : List (String × CAFFileMetadata)) (k : String) (v : CAFFileMetadata)
    (h : k ∉ m.map Prod.fst) : recordSet m k v = m ++ [(k, v)] := by
  induction m with
  | nil => rfl
  | cons kv rest ih =>
    obtain ⟨k', v'⟩ := kv
    simp only [List.map_cons, List.mem_cons] at h
    push_neg at h
    rw [recordSet, if_neg (Ne.symm h.1)]
    rw [ih h.2]
    rfl

theorem recordGet_append_single (m : List (String × CAFFileMetadata)) (k p : String)
    (v : CAFFileMetadata) :
    recordGet (m ++ [(k, v)]) p = if recordGet m p = none then
      (if k = p then some v else none) else recordGet m p := by
  induction m with
  | nil => simp [recordGet]
  | cons kv rest ih =>
    obtain ⟨k', v'⟩ := kv
    by_cases h : k' = p
    · simp [recordGet, h]
    · simp only [List.cons_append, recordGet, if_neg h]
      exact ih

end CAF

namespace CAF

theorem totalLen_cons (p : String) (d : List Nat) (rest : List (String × List Nat)) :
    totalLen ((p, d) :: rest) = d.length + totalLen rest := by
  simp [totalLen]

theorem concatData_cons (p : String) (d : List Nat) (rest : List (String × List Nat)) :
    concatData ((p, d) :: rest) = d ++ concatData rest := rfl

theorem buildIndex_keys (members : List (String × List Nat)) :
    ∀ base, (buildIndex base members).map Prod.fst = members.map Prod.fst := by
  induction members with
  | nil => intro base; rfl
  | cons pd rest ih =>
    intro base
    obtain ⟨p, d⟩ := pd
    simp [buildIndex, ih]

theorem addFiles_spec (members : List (String × List Nat)) :
    ∀ s : CAFSerializer,
    s.currentPosition = s.payload.length →
    s.payload.length + totalLen members ≤ s.maxChunkSize →
    (∀ p ∈ members.map Prod.fst, p ∉ s.fileIndex.map Prod.fst) →
    (members.map Prod.fst).Nodup →
    addFiles s members =
      (⟨s.currentPosition + totalLen members,
        s.fileIndex ++ buildIndex s.currentPosition members,
        s.payload ++ concatData members,
        s.maxChunkSize⟩, true) := by
  induction members with
  | nil =>
    intro s h1 h2 h3 h4
    simp [addFiles, totalLen, buildIndex, concatData]
  | cons pd rest ih =>
    intro s h1 h2 h3 h4
    obtain ⟨p, d⟩ := pd
    rw [totalLen_cons] at h2
    have h4' : p ∉ rest.map Prod.fst ∧ (rest.map Prod.fst).Nodup :=
      List.nodup_cons.mp (by rw [List.map_cons] at h4; exact h4)
    have hcap : ¬s.currentPosition + d.length > s.maxChunkSize := by
      rw [h1]; omega
    rw [addFiles]
    simp only [CAFSerializer.addFile, if_neg hcap]
    have hfresh : p ∉ s.fileIndex.map Prod.fst := h3 p (by simp)
    rw [recordSet_fresh _ _ _ hfresh]
    rw [ih (CAFSerializer.mk (s.currentPosition + d.length) (s.fileIndex ++ [(p, CAFFileMetadata.mk s.currentPosition (s.currentPosition + d.length))]) (s.payload ++ d) s.maxChunkSize)
        (by simp [h1]) (by simp; omega)
        (by
          intro q hq
          simp only [List.map_append, List.map_cons, List.map_nil, List.mem_append,
            List.mem_singleton]
          push_neg
          refine ⟨h3 q (by simp [hq]), ?_⟩
          intro hqp
          exact h4'.1 (hqp ▸ hq))
        h4'.2]
    simp [totalLen_cons, buildIndex, concatData_cons, List.append_assoc, Nat.add_assoc]

end CAF

namespace CAF

theorem recordGet_buildIndex (members : List (String × List Nat)) :
    ∀ (pre suf : List Nat) (p : String) (d : List Nat),
    (members.map Prod.fst).Nodup → (p, d) ∈ members →
    ∃ st, recordGet (buildIndex pre.length members) p
        = some ⟨st, st + d.length⟩ ∧
      ((pre ++ (concatData members ++ suf)).drop st).take d.length = d := by
  induction members with
  | nil =>
    intro pre suf p d _ hmem
    cases hmem
  | cons qd rest ih =>
    intro pre suf p d hnd hmem
    obtain ⟨q, d0⟩ := qd
    have hnd' : q ∉ rest.map Prod.fst ∧ (rest.map Prod.fst).Nodup :=
      List.nodup_cons.mp (by rw [List.map_cons] at hnd; exact hnd)
    rw [buildIndex]
    rcases List.mem_cons.mp hmem with heq | hmem'
    · simp only [Prod.mk.injEq] at heq
      obtain ⟨rfl, rfl⟩ := heq
      refine ⟨pre.length, ?_, ?_⟩
      · rw [recordGet, if_pos rfl]
      · rw [List.drop_left, concatData_cons, List.append_assoc, List.take_left]
    · have hpkeys : p ∈ rest.map Prod.fst := List.mem_map.mpr ⟨(p, d), hmem', rfl⟩
      have hne : ¬q = p := fun h => hnd'.1 (h ▸ hpkeys)
      rw [recordGet, if_neg hne]
      have hrearr : pre ++ (concatData ((q, d0) :: rest) ++ suf)
          = (pre ++ d0) ++ (concatData rest ++ suf) := by
        rw [concatData_cons]
        simp [List.append_assoc]
      obtain ⟨st, hget, hslice⟩ := ih (pre ++ d0) suf p d hnd'.2 hmem'
      refine ⟨st, ?_, ?_⟩
      · rw [show pre.length + d0.length = (pre ++ d0).length by simp]
        exact hget
      · rw [hrearr]
        exact hslice

end CAF

namespace CAF

/-- C1: Format round-trip. For every finite set of `(member_path, bytes)` pairs
with unique non-empty member paths whose total size plus the JSON index plus 4
footer bytes fits the budget (and hence, as the u32 footer demands, an index
region below 2^32 bytes), creating a `CAFSerializer`, calling `addFile` for
each pair and `finalize`, then opening the file with `CAFDeserializer`,
`loadIndex`, and `extractFile` yields byte-identical contents for every member,
and the reader's file list contains every inserted member path exactly once. -/
theorem claim_C1 (members : List (String × List Nat)) (budget : Nat)
    (hnodup : (members.map Prod.fst).Nodup)
    (hne : ∀ p ∈ members.map Prod.fst, p ≠ "")

    (hbudget : totalLen members
      + (utf8Encode (encodeIndexJson "1.0" (buildIndex 0 members))).length + 4 ≤ budget)
    (hidx : (utf8Encode (encodeIndexJson "1.0" (buildIndex 0 members))).length < 4294967296) :
    (addFiles (CAFSerializer.new budget) members).2 = true ∧
    ∃ file, (addFiles (CAFSerializer.new budget) members).1.finalize = some file ∧
      ∃ idx, loadIndex file = some idx ∧
        (∀ p d, (p, d) ∈ members → extractFile file idx p = some d) ∧
        (∀ p ∈ members.map Prod.fst, idx.getFileList.count p = 1) := by
  clear hne
  have hspec := addFiles_spec members (CAFSerializer.new budget) rfl
    (by simp [CAFSerializer.new]; omega) (by simp [CAFSerializer.new]) hnodup
  rw [hspec]
  simp only [CAFSerializer.new, List.nil_append, Nat.zero_add]
  refine ⟨trivial, ?_⟩
  rw [CAFSerializer.finalize]
  simp only []
  rw [if_pos hidx]
  refine ⟨_, rfl, ?_⟩
  have hload := loadIndex_encoded (concatData members) "1.0" (buildIndex 0 members) hidx
  simp only [List.nil_append, Nat.zero_add] at hload ⊢
  rw [hload]
  refine ⟨_, rfl, ?_, ?_⟩
  · intro p d hmem
    obtain ⟨st, hget, hslice⟩ := recordGet_buildIndex members ([] : List Nat)
      (utf8Encode (encodeIndexJson "1.0" (buildIndex 0 members))
        ++ writeUInt32LE (utf8Encode (encodeIndexJson "1.0" (buildIndex 0 members))).length)
      p d hnodup hmem
    simp only [List.length_nil, List.nil_append] at hget hslice
    rw [extractFile]
    simp only []
    rw [hget]
    simp only []
    have harith : st + d.length - st = d.length := by omega
    rw [harith]
    rw [show concatData members
        ++ utf8Encode (encodeIndexJson "1.0" (buildIndex 0 members))
        ++ writeUInt32LE (utf8Encode (encodeIndexJson "1.0" (buildIndex 0 members))).length
        = concatData members
          ++ (utf8Encode (encodeIndexJson "1.0" (buildIndex 0 members))
            ++ writeUInt32LE (utf8Encode
              (encodeIndexJson "1.0" (buildIndex 0 members))).length)
      from by simp [List.append_assoc]]
    rw [hslice]
  · intro p hp
    rw [CAFIndex.getFileList]
    simp only []
    rw [buildIndex_keys]
    exact List.count_eq_one_of_mem hnodup hp

end CAF

namespace CAF

/-- C1 witness: the round-trip theorem applied to the concrete archive
`[("a", [1]), ("b", [2, 3])]` with a 200-byte budget, every hypothesis
discharged by evaluation. -/
theorem claim_C1_witness :
    (addFiles (CAFSerializer.new 200) [("a", [1]), ("b", [2, 3])]).2 = true ∧
    ∃ file,
      (addFiles (CAFSerializer.new 200) [("a", [1]), ("b", [2, 3])]).1.finalize = some file ∧
      ∃ idx, loadIndex file = some idx ∧
        (∀ p d, (p, d) ∈ [("a", [1]), ("b", [2, 3])] → extractFile file idx p = some d) ∧
        (∀ p ∈ [("a", [1]), ("b", [2, 3])].map Prod.fst, idx.getFileList.count p = 1) :=
  claim_C1 [("a", [1]), ("b", [2, 3])] 200 (by decide) (by decide) (by decide) (by decide)

end CAF

namespace CAF

theorem runOps_invariant (ops : List AppendOp) :
    ∀ s : CAFSerializer, s.currentPosition ≤ s.maxChunkSize →
    s.payload.length = s.currentPosition → (∀ op ∈ ops, op.honest) →
    (runOps s ops).currentPosition ≤ (runOps s ops).maxChunkSize ∧
    (runOps s ops).payload.length = (runOps s ops).currentPosition ∧
    (runOps s ops).maxChunkSize = s.maxChunkSize := by
  induction ops with
  | nil => intro s h1 h2 _; exact ⟨h1, h2, rfl⟩
  | cons op rest ih =>
    intro s h1 h2 hh
    rw [runOps, List.foldl_cons]
    rw [show List.foldl applyOp (applyOp s op) rest = runOps (applyOp s op) rest from rfl]
    cases op with
    | buffer p d =>
      by_cases hcap : s.currentPosition + d.length > s.maxChunkSize
      · rw [show applyOp s (.buffer p d) = s from by
          simp [applyOp, CAFSerializer.addFile, if_pos hcap]]
        exact ih s h1 h2 (fun op hop => hh op (by simp [hop]))
      · rw [show applyOp s (.buffer p d)
            = CAFSerializer.mk (s.currentPosition + d.length)
              (recordSet s.fileIndex p
                (CAFFileMetadata.mk s.currentPosition (s.currentPosition + d.length)))
              (s.payload ++ d) s.maxChunkSize from by
          simp [applyOp, CAFSerializer.addFile, if_neg hcap]]
        exact ih _ (by simp; omega) (by simp; omega) (fun op hop => hh op (by simp [hop]))
    | stream p bytes n =>
      have hhonest : bytes.length = n := hh (.stream p bytes n) (by simp)
      by_cases hcap : s.currentPosition + n > s.maxChunkSize
      · rw [show applyOp s (.stream p bytes n) = s from by
          simp [applyOp, CAFSerializer.addFileFromStream, if_pos hcap]]
        exact ih s h1 h2 (fun op hop => hh op (by simp [hop]))
      · rw [show applyOp s (.stream p bytes n)
            = CAFSerializer.mk (s.currentPosition + n)
              (recordSet s.fileIndex p
                (CAFFileMetadata.mk s.currentPosition (s.currentPosition + n)))
              (s.payload ++ bytes) s.maxChunkSize from by
          simp [applyOp, CAFSerializer.addFileFromStream, if_neg hcap]]
        exact ih _ (by simp; omega) (by simp [hhonest]; omega)
          (fun op hop => hh op (by simp [hop]))

/-- C2: Capacity law. An append (`addFile` or `addFileFromStream`) whose size
(or declared length) would push the payload offset past `maxChunkSize` returns
`false` and leaves the writer untouched; consequently, over any run of appends
whose streams deliver their declared length, the payload region never exceeds
the budget; and on a fresh writer an append of exactly the budget succeeds
while budget-plus-one fails. -/
theorem claim_C2 :
    (∀ (s : CAFSerializer) (p : String) (d : List Nat),
      s.currentPosition + d.length > s.maxChunkSize → s.addFile p d = (s, false)) ∧
    (∀ (s : CAFSerializer) (p : String) (bytes : List Nat) (n : Nat),
      s.currentPosition + n > s.maxChunkSize → s.addFileFromStream p bytes n = (s, false)) ∧
    (∀ (budget : Nat) (ops : List AppendOp), (∀ op ∈ ops, op.honest) →
      (runOps (CAFSerializer.new budget) ops).currentPosition ≤ budget ∧
      (runOps (CAFSerializer.new budget) ops).payload.length
        = (runOps (CAFSerializer.new budget) ops).currentPosition) ∧
    (∀ (budget : Nat) (p : String),
      ((CAFSerializer.new budget).addFile p (List.replicate budget 0)).2 = true) ∧
    (∀ (budget : Nat) (p : String),
      ((CAFSerializer.new budget).addFile p (List.replicate (budget + 1) 0)).2 = false) := by
  refine ⟨?_, ?_, ?_, ?_, ?_⟩
  · intro s p d h
    rw [CAFSerializer.addFile, if_pos h]
  · intro s p bytes n h
    rw [CAFSerializer.addFileFromStream, if_pos h]
  · intro budget ops hh
    have := runOps_invariant ops (CAFSerializer.new budget) (by simp [CAFSerializer.new])
      (by simp [CAFSerializer.new]) hh
    have hmax : (runOps (CAFSerializer.new budget) ops).maxChunkSize = budget := by
      simpa [CAFSerializer.new] using this.2.2
    exact ⟨le_trans this.1 (le_of_eq hmax), this.2.1⟩
  · intro budget p
    rw [CAFSerializer.addFile, if_neg (by simp [CAFSerializer.new])]
  · intro budget p
    rw [CAFSerializer.addFile, if_pos (by simp [CAFSerializer.new])]

/-- C2 witness: the capacity law applied at concrete writers — a full append
over budget 3 is refused and leaves the state intact, the boundary appends of
exactly 3 and of 4 bytes behave as stated, and a concrete honest run stays
within its budget. -/
theorem claim_C2_witness :
    (CAFSerializer.mk 2 [] [7, 7] 3).addFile "x" [1, 2] = (CAFSerializer.mk 2 [] [7, 7] 3, false) ∧
    ((CAFSerializer.new 3).addFile "a" (List.replicate 3 0)).2 = true ∧
    ((CAFSerializer.new 3).addFile "a" (List.replicate 4 0)).2 = false ∧
    (runOps (CAFSerializer.new 10) [.buffer "a" [1, 2], .stream "b" [3] 1]).currentPosition ≤ 10 := by
  refine ⟨claim_C2.1 _ "x" [1, 2] (by decide), claim_C2.2.2.2.1 3 "a",
    claim_C2.2.2.2.2 3 "a", ?_⟩
  refine (claim_C2.2.2.1 10 [.buffer "a" [1, 2], .stream "b" [3] 1] ?_).1
  intro op hop
  rcases List.mem_cons.mp hop with h | h
  · rw [h]; trivial
  · rcases List.mem_cons.mp h with h2 | h2
    · rw [h2]; rfl
    · cases h2

end CAF

namespace CAF

theorem recordGet_recordSet (m : List (String × CAFFileMetadata)) (k : String)
    (v : CAFFileMetadata) : recordGet (recordSet m k v) k = some v := by
  induction m with
  | nil => simp [recordSet, recordGet]
  | cons kv rest ih =>
    obtain ⟨k', v'⟩ := kv
    by_cases h : k' = k
    · rw [recordSet, if_pos h, recordGet, if_pos rfl]
    · rw [recordSet, if_neg h, recordGet, if_neg h]
      exact ih

theorem recordSet_keys (m : List (String × CAFFileMetadata)) (k : String) (v : CAFFileMetadata)
    (h : k ∈ m.map Prod.fst) : (recordSet m k v).map Prod.fst = m.map Prod.fst := by
  induction m with
  | nil => cases h
  | cons kv rest ih =>
    obtain ⟨k', v'⟩ := kv
    by_cases hk : k' = k
    · rw [recordSet, if_pos hk]
      simp [hk]
    · rw [recordSet, if_neg hk]
      have hmem : k ∈ rest.map Prod.fst := by
        rw [List.map_cons] at h
        rcases List.mem_cons.mp h with h1 | h1
        · exact absurd h1.symm hk
        · exact h1
      simp [ih hmem]

theorem recordGet_mem_keys (m : List (String × CAFFileMetadata)) (k : String)
    (v : CAFFileMetadata) (h : recordGet m k = some v) : k ∈ m.map Prod.fst := by
  induction m with
  | nil => exact absurd h (by rw [recordGet]; simp)
  | cons kv rest ih =>
    obtain ⟨k', v'⟩ := kv
    by_cases hk : k' = k
    · simp [hk]
    · rw [recordGet, if_neg hk] at h
      simp [ih h]

/-- C5 counterexample: a container whose index has `format_version` `"2.0"` and
a member range with `start_byte = end_byte = 0` is accepted by `loadIndex` and
cached verbatim, where the claim demands rejection (`UnsupportedVersion` /
invalid range). -/
theorem claim_C5_counterexample :
    loadIndex (utf8Encode (encodeIndexJson "2.0" [("a", CAFFileMetadata.mk 0 0)])
        ++ writeUInt32LE (utf8Encode (encodeIndexJson "2.0"
          [("a", CAFFileMetadata.mk 0 0)])).length)
      = some (CAFIndex.mk "2.0" [("a", CAFFileMetadata.mk 0 0)]) := by decide

/-- C5 (amended): `loadIndex` decodes the final 4 bytes as a little-endian u32
index size, reads the index bytes at `file_length - 4 - index_size` (a size
reaching past the front of the file makes the positional read throw), parses
them as UTF-8 JSON and caches the result verbatim: no `format_version` check
and no member-range check is performed — any version string and any
`start_byte`/`end_byte` values round-trip. -/
theorem claim_C5_amended (payload : List Nat) (v : String)
    (files : List (String × CAFFileMetadata))
    (h : (utf8Encode (encodeIndexJson v files)).length < 4294967296) :
    loadIndex (payload ++ utf8Encode (encodeIndexJson v files)
        ++ writeUInt32LE (utf8Encode (encodeIndexJson v files)).length)
      = some ⟨v, files⟩ :=
  loadIndex_encoded payload v files h

/-- C5 witness: the amended theorem applied to a concrete file with version
`"2.0"`, a payload byte, and a decreasing range (start 2, end 1), all accepted. -/
theorem claim_C5_witness :
    loadIndex ([7] ++ utf8Encode (encodeIndexJson "2.0" [("a", CAFFileMetadata.mk 2 1)])
        ++ writeUInt32LE (utf8Encode (encodeIndexJson "2.0"
          [("a", CAFFileMetadata.mk 2 1)])).length)
      = some (CAFIndex.mk "2.0" [("a", CAFFileMetadata.mk 2 1)]) :=
  claim_C5_amended [7] "2.0" [("a", CAFFileMetadata.mk 2 1)] (by decide)

/-- C6 counterexample: a stream that ends after yielding 0 bytes against a
declared length of 5 passes the capacity check, is accepted (`true`), and the
member is recorded with `end_byte - start_byte = 5` — where the claim demands a
`SizeMismatch` failure with no member recorded. -/
theorem claim_C6_counterexample :
    (CAFSerializer.new 100).addFileFromStream "a" [] 5
      = (CAFSerializer.mk 5 [("a", CAFFileMetadata.mk 0 5)] [] 100, true) := by decide

/-- C6 (amended): `addFileFromStream` never compares the bytes received with
the declared length: whenever the capacity check passes, the call succeeds and
records the index entry and the new payload offset from `contentLength` alone,
while the payload grows by exactly the bytes the stream actually delivered
(fewer or more than declared included). -/
theorem claim_C6_amended (s : CAFSerializer) (p : String) (bytes : List Nat) (n : Nat)
    (h : ¬s.currentPosition + n > s.maxChunkSize) :
    s.addFileFromStream p bytes n =
      (CAFSerializer.mk (s.currentPosition + n)
        (recordSet s.fileIndex p
          (CAFFileMetadata.mk s.currentPosition (s.currentPosition + n)))
        (s.payload ++ bytes) s.maxChunkSize, true) := by
  rw [CAFSerializer.addFileFromStream, if_neg h]

/-- C6 witness: the amended theorem at a stream delivering 2 bytes against a
declared length of 5. -/
theorem claim_C6_witness :
    (CAFSerializer.new 100).addFileFromStream "a" [1, 2] 5
      = (CAFSerializer.mk 5 [("a", CAFFileMetadata.mk 0 5)] [1, 2] 100, true) := by
  have := claim_C6_amended (CAFSerializer.new 100) "a" [1, 2] 5 (by decide)
  simpa [CAFSerializer.new, recordSet] using this

/-- C7 counterexample: a second `addFile` with the member path `"a"` already in
the index is accepted (`true`), writes its bytes, and overwrites the index
entry — where the claim demands a `DuplicateMember` rejection before any
write. -/
theorem claim_C7_counterexample :
    ((CAFSerializer.new 100).addFile "a" [1, 2]).1.addFile "a" [3]
      = (CAFSerializer.mk 3 [("a", CAFFileMetadata.mk 2 3)] [1, 2, 3] 100, true) := by decide

/-- C7 (amended): no duplicate-member check exists. A second append under an
existing member path that passes the capacity check succeeds, appends its bytes
to the payload, and overwrites the member's index entry in place with the new
range (the key set is unchanged); the first occurrence's bytes remain in the
payload but are no longer addressed by the index. -/
theorem claim_C7_amended (s : CAFSerializer) (p : String) (d : List Nat) (m : CAFFileMetadata)
    (hdup : recordGet s.fileIndex p = some m)
    (hcap : ¬s.currentPosition + d.length > s.maxChunkSize) :
    (s.addFile p d).2 = true ∧
    (s.addFile p d).1.payload = s.payload ++ d ∧
    recordGet (s.addFile p d).1.fileIndex p
      = some (CAFFileMetadata.mk s.currentPosition (s.currentPosition + d.length)) ∧
    (s.addFile p d).1.fileIndex.map Prod.fst = s.fileIndex.map Prod.fst := by
  have hkey : p ∈ s.fileIndex.map Prod.fst := recordGet_mem_keys s.fileIndex p m hdup
  rw [CAFSerializer.addFile, if_neg hcap]
  refine ⟨rfl, rfl, ?_, ?_⟩
  · exact recordGet_recordSet _ _ _
  · exact recordSet_keys _ _ _ hkey

/-- C7 witness: the amended theorem at the concrete duplicate append of the
counterexample's writer state. -/
theorem claim_C7_witness :
    ((CAFSerializer.mk 2 [("a", CAFFileMetadata.mk 0 2)] [1, 2] 100).addFile "a" [3]).2 = true ∧
    ((CAFSerializer.mk 2 [("a", CAFFileMetadata.mk 0 2)] [1, 2] 100).addFile "a" [3]).1.payload
      = [1, 2] ++ [3] ∧
    recordGet ((CAFSerializer.mk 2 [("a", CAFFileMetadata.mk 0 2)] [1, 2] 100).addFile
      "a" [3]).1.fileIndex "a" = some (CAFFileMetadata.mk 2 3) ∧
    ((CAFSerializer.mk 2 [("a", CAFFileMetadata.mk 0 2)] [1, 2] 100).addFile
      "a" [3]).1.fileIndex.map Prod.fst
      = [("a", CAFFileMetadata.mk 0 2)].map Prod.fst :=
  claim_C7_amended (CAFSerializer.mk 2 [("a", CAFFileMetadata.mk 0 2)] [1, 2] 100)
    "a" [3] (CAFFileMetadata.mk 0 2) (by decide) (by decide)

end CAF

namespace Main

theorem pending_isEmpty_false (st : ProcState) (hp : st.pendingMessages ≠ []) :
    st.pendingMessages.isEmpty = false := by
  rw [Bool.eq_false_iff]
  intro hT
  exact hp (List.isEmpty_iff.mp hT)

theorem finalize_success_events (st : ProcState) (insertOk : String → String → Bool)
    (name worker : String) (caf : CAF.CAFSerializer) (content : List Nat)
    (hcaf : st.currentCAF = some caf) (hp : st.pendingMessages ≠ [])
    (hfin : caf.finalize = some content) :
    finalizeCurrentCAF st true insertOk name worker
      = (ProcState.mk none [] false,
        Event.upload name content ::
          st.pendingMessages.flatMap (fun m =>
            [Event.insert m.filePath m.taskId name worker (insertOk m.taskId m.filePath),
              Event.ack m.msgId])) := by
  rw [finalizeCurrentCAF, hcaf]
  simp only []
  rw [if_neg (by simp [pending_isEmpty_false st hp])]
  rw [hfin]
  simp

theorem finalize_nack_events (st : ProcState) (u : Bool) (insertOk : String → String → Bool)
    (name worker : String) (caf : CAF.CAFSerializer)
    (hcaf : st.currentCAF = some caf) (hp : st.pendingMessages ≠ [])
    (h : caf.finalize = none ∨ u = false) :
    finalizeCurrentCAF st u insertOk name worker
      = (ProcState.mk none [] false,
        st.pendingMessages.map (fun m => Event.nack m.msgId)) := by
  rw [finalizeCurrentCAF, hcaf]
  simp only []
  rw [if_neg (by simp [pending_isEmpty_false st hp])]
  rcases h with h | h
  · rw [h]
  · cases hfin : caf.finalize with
    | none => simp only []
    | some content =>
      simp only []
      rw [h, if_neg (by simp)]

theorem finalize_noop (st : ProcState) (u : Bool) (i : String → String → Bool)
    (n w : String) (h : st.currentCAF = none ∨ st.pendingMessages = []) :
    finalizeCurrentCAF st u i n w = (st, []) := by
  rw [finalizeCurrentCAF]
  cases hc : st.currentCAF with
  | none => rfl
  | some caf =>
    rcases h with h | h
    · rw [hc] at h; cases h
    · simp only []
      rw [if_pos (by simp [h])]

theorem finalize_state_shape (st : ProcState) (u : Bool) (i : String → String → Bool)
    (n w : String) :
    (finalizeCurrentCAF st u i n w).1
      = if st.currentCAF = none ∨ st.pendingMessages = [] then st
        else ProcState.mk none [] false := by
  by_cases h : st.currentCAF = none ∨ st.pendingMessages = []
  · rw [finalize_noop st u i n w h, if_pos h]
  · rw [if_neg h]
    push_neg at h
    obtain ⟨hc, hp⟩ := h
    cases hcaf : st.currentCAF with
    | none => exact absurd hcaf hc
    | some caf =>
      by_cases hfin : ∃ content, caf.finalize = some content
      · obtain ⟨content, hfin⟩ := hfin
        cases u with
        | true => rw [finalize_success_events st i n w caf content hcaf hp hfin]
        | false => rw [finalize_nack_events st false i n w caf hcaf hp (Or.inr rfl)]
      · have hnone : caf.finalize = none := by
          cases h : caf.finalize with
          | none => rfl
          | some c => exact absurd ⟨c, h⟩ hfin
        rw [finalize_nack_events st u i n w caf hcaf hp (Or.inl hnone)]

theorem flatMap_pair_get (msgs : List PendingMessage) (f g : PendingMessage → Event) :
    ∀ m ∈ msgs, ∃ i, (msgs.flatMap (fun x => [f x, g x])).get? i = some (f m) ∧
      (msgs.flatMap (fun x => [f x, g x])).get? (i + 1) = some (g m) := by
  induction msgs with
  | nil => intro m hm; cases hm
  | cons q rest ih =>
    intro m hm
    rcases List.mem_cons.mp hm with h | h
    · subst h
      exact ⟨0, rfl, rfl⟩
    · obtain ⟨i, h1, h2⟩ := ih m h
      exact ⟨i + 2, by simpa using h1, by simpa using h2⟩

end Main

namespace Main

/-- C3 counterexample: a concrete successful-upload batch of two messages where
every catalog insert fails. The first message is acknowledged before the second
message's insert is even issued, the failed inserts do not prevent any
acknowledgement, and no message is negatively acknowledged — the claim demands
nack-all and no acks when any insert fails, and no ack before the whole batch's
inserts. -/
theorem claim_C3_counterexample :
    (let r := finalizeCurrentCAF
        (ProcState.mk (some (CAF.CAFSerializer.new 100))
          [PendingMessage.mk 1 "t1" "f1", PendingMessage.mk 2 "t2" "f2"] true)
        true (fun _ _ => false) "batch_1.caf" "w1";
      r.2.indexOf (Event.ack 1)
          < r.2.indexOf (Event.insert "f2" "t2" "batch_1.caf" "w1" false) ∧
        Event.ack 1 ∈ r.2 ∧
        Event.insert "f1" "t1" "batch_1.caf" "w1" false ∈ r.2 ∧
        r.2.all (fun e => !e.isNack) = true) := by decide

/-- C3 (amended): during finalization, when finalize or the upload fails every
pending message is nacked and none is acked; when the upload succeeds, the
upload event comes first and each message's ack immediately follows that
message's own catalog-insert attempt — the insert's failure is swallowed and
does not prevent the ack, and later messages' inserts are issued only after
earlier messages were already acked. -/
theorem claim_C3_amended (st : ProcState) (uploadOk : Bool)
    (insertOk : String → String → Bool) (name worker : String) (caf : CAF.CAFSerializer)
    (hcaf : st.currentCAF = some caf) (hp : st.pendingMessages ≠ []) :
    (caf.finalize = none ∨ uploadOk = false →
      (finalizeCurrentCAF st uploadOk insertOk name worker).2
        = st.pendingMessages.map (fun m => Event.nack m.msgId)) ∧
    (∀ content, caf.finalize = some content → uploadOk = true →
      (finalizeCurrentCAF st uploadOk insertOk name worker).2
        = Event.upload name content ::
            st.pendingMessages.flatMap (fun m =>
              [Event.insert m.filePath m.taskId name worker (insertOk m.taskId m.filePath),
                Event.ack m.msgId])) ∧
    (∀ content, caf.finalize = some content → uploadOk = true →
      ∀ m ∈ st.pendingMessages,
        (finalizeCurrentCAF st uploadOk insertOk name worker).2.get? 0
          = some (Event.upload name content) ∧
        ∃ i, (finalizeCurrentCAF st uploadOk insertOk name worker).2.get? (i + 1)
            = some (Event.insert m.filePath m.taskId name worker
              (insertOk m.taskId m.filePath)) ∧
          (finalizeCurrentCAF st uploadOk insertOk name worker).2.get? (i + 2)
            = some (Event.ack m.msgId)) := by
  refine ⟨?_, ?_, ?_⟩
  · intro h
    rw [finalize_nack_events st uploadOk insertOk name worker caf hcaf hp h]
  · intro content hfin hup
    subst hup
    rw [finalize_success_events st insertOk name worker caf content hcaf hp hfin]
  · intro content hfin hup m hm
    subst hup
    rw [finalize_success_events st insertOk name worker caf content hcaf hp hfin]
    refine ⟨rfl, ?_⟩
    obtain ⟨i, h1, h2⟩ := flatMap_pair_get st.pendingMessages
      (fun x => Event.insert x.filePath x.taskId name worker (insertOk x.taskId x.filePath))
      (fun x => Event.ack x.msgId) m hm
    exact ⟨i, by simpa using h1, by simpa using h2⟩

/-- C3 witness: the amended theorem applied to the concrete batch of the
counterexample — all inserts failing, upload succeeding — yields exactly the
insert-then-ack-per-message trace behind the upload. -/
theorem claim_C3_witness :
    (finalizeCurrentCAF
        (ProcState.mk (some (CAF.CAFSerializer.new 100))
          [PendingMessage.mk 1 "t1" "f1", PendingMessage.mk 2 "t2" "f2"] true)
        true (fun _ _ => false) "batch_1.caf" "w1").2
      = Event.upload "batch_1.caf" ((CAF.CAFSerializer.new 100).finalize.getD []) ::
          [PendingMessage.mk 1 "t1" "f1", PendingMessage.mk 2 "t2" "f2"].flatMap (fun m =>
            [Event.insert m.filePath m.taskId "batch_1.caf" "w1" false,
              Event.ack m.msgId]) := by
  have hfin : (CAF.CAFSerializer.new 100).finalize
      = some ((CAF.CAFSerializer.new 100).finalize.getD []) := by decide
  exact (claim_C3_amended
    (ProcState.mk (some (CAF.CAFSerializer.new 100))
      [PendingMessage.mk 1 "t1" "f1", PendingMessage.mk 2 "t2" "f2"] true)
    true (fun _ _ => false) "batch_1.caf" "w1" (CAF.CAFSerializer.new 100)
    rfl (by decide)).2.1 _ hfin rfl

/-- C10: no double finalization. The processor state returned by
`finalizeCurrentCAF` does not depend on the outcomes of the finalize, upload or
insert calls (the in-flight state is cleared synchronously before any of that
I/O); a second invocation on the resulting state returns it unchanged and
performs no upload, insert, ack or nack; and whenever a batch was actually in
flight the resulting state has no current CAF, an empty pending list, and a
cleared inactivity timer. -/
theorem claim_C10 (st : ProcState) (u1 u2 : Bool) (i1 i2 : String → String → Bool)
    (n1 n2 w1 w2 : String) :
    (∀ (u' : Bool) (i' : String → String → Bool) (n' w' : String),
      (finalizeCurrentCAF st u' i' n' w').1 = (finalizeCurrentCAF st u1 i1 n1 w1).1) ∧
    finalizeCurrentCAF (finalizeCurrentCAF st u1 i1 n1 w1).1 u2 i2 n2 w2
      = ((finalizeCurrentCAF st u1 i1 n1 w1).1, []) ∧
    (st.currentCAF ≠ none → st.pendingMessages ≠ [] →
      (finalizeCurrentCAF st u1 i1 n1 w1).1 = ProcState.mk none [] false) := by
  refine ⟨?_, ?_, ?_⟩
  · intro u' i' n' w'
    rw [finalize_state_shape, finalize_state_shape]
  · by_cases h : st.currentCAF = none ∨ st.pendingMessages = []
    · rw [finalize_noop st u1 i1 n1 w1 h]
      exact finalize_noop st u2 i2 n2 w2 h
    · rw [finalize_state_shape, if_neg h]
      exact finalize_noop _ u2 i2 n2 w2 (Or.inl rfl)
  · intro hc hp
    rw [finalize_state_shape, if_neg (not_or.mpr ⟨hc, hp⟩)]

/-- C10 witness: the theorem applied to a concrete in-flight batch, giving the
cleared state and the no-op second invocation. -/
theorem claim_C10_witness :
    finalizeCurrentCAF
        (finalizeCurrentCAF
          (ProcState.mk (some (CAF.CAFSerializer.new 50)) [PendingMessage.mk 3 "t" "f"] true)
          false (fun _ _ => true) "a" "b").1
        true (fun _ _ => true) "c" "d"
      = ((finalizeCurrentCAF
          (ProcState.mk (some (CAF.CAFSerializer.new 50)) [PendingMessage.mk 3 "t" "f"] true)
          false (fun _ _ => true) "a" "b").1, []) ∧
    (finalizeCurrentCAF
        (ProcState.mk (some (CAF.CAFSerializer.new 50)) [PendingMessage.mk 3 "t" "f"] true)
        false (fun _ _ => true) "a" "b").1 = ProcState.mk none [] false := by
  have h := claim_C10
    (ProcState.mk (some (CAF.CAFSerializer.new 50)) [PendingMessage.mk 3 "t" "f"] true)
    false true (fun _ _ => true) (fun _ _ => true) "a" "b" "c" "d"
  exact ⟨h.2.1, h.2.2 (by simp) (by simp)⟩

end Main

namespace Main

/-- C4: Budget rollover. When the in-flight writer refuses the current
message's stream (declared length would exceed the budget), `processMessage`
finalizes and ships the predecessor container exactly as it stood (without the
triggering message's bytes), re-obtains the source stream (a second
`downloadStream` of the same `file_path`), opens a fresh writer with the
configured budget, appends the re-obtained stream to it, and places the message
as the sole entry of the new container's pending list. -/
theorem claim_C4 (st : ProcState) (msg : PendingMessage) (caf : CAF.CAFSerializer)
    (bytes1 : List Nat) (len1 : Nat) (bytes2 : List Nat) (len2 : Nat)
    (insertOk : String → String → Bool) (nameA nameB worker : String) (content : List Nat)
    (hcaf : st.currentCAF = some caf) (hp : st.pendingMessages ≠ [])
    (hfull : caf.currentPosition + len1 > caf.maxChunkSize)
    (hfit : len2 ≤ CAF_MAX_SIZE_BYTES)
    (hfin : caf.finalize = some content) :
    processMessage st msg bytes1 len1 bytes2 len2 true insertOk nameA nameB worker
      = (ProcState.mk
          (some (CAF.CAFSerializer.mk len2
            [(msg.taskId ++ "/" ++ msg.filePath, CAF.CAFFileMetadata.mk 0 len2)]
            bytes2 CAF_MAX_SIZE_BYTES))
          [msg] true,
        [Event.downloadStream msg.filePath, Event.startTimer]
          ++ (Event.upload nameA content ::
            st.pendingMessages.flatMap (fun m =>
              [Event.insert m.filePath m.taskId nameA worker (insertOk m.taskId m.filePath),
                Event.ack m.msgId]))
          ++ [Event.startTimer, Event.downloadStream msg.filePath, Event.startTimer]) := by
  rw [processMessage, hcaf]
  simp only []
  rw [show caf.addFileFromStream (msg.taskId ++ "/" ++ msg.filePath) bytes1 len1
      = (caf, false) from by rw [CAF.CAFSerializer.addFileFromStream, if_pos hfull]]
  simp only []
  rw [finalize_success_events (ProcState.mk (some caf) st.pendingMessages true)
    insertOk nameA worker caf content rfl hp hfin]
  rw [show (CAF.CAFSerializer.new CAF_MAX_SIZE_BYTES).addFileFromStream
        (msg.taskId ++ "/" ++ msg.filePath) bytes2 len2
      = (CAF.CAFSerializer.mk len2
          [(msg.taskId ++ "/" ++ msg.filePath, CAF.CAFFileMetadata.mk 0 len2)]
          bytes2 CAF_MAX_SIZE_BYTES, true) from by
    rw [CAF.CAFSerializer.addFileFromStream,
      if_neg (by simp [CAF.CAFSerializer.new]; omega)]
    simp [CAF.CAFSerializer.new, CAF.recordSet]]
  simp only []
  rw [if_neg (by simp [prefetch])]
  simp

end Main

namespace Main

/-- C4 witness: the rollover theorem applied to a concrete full writer (offset
at the 1.75 GiB budget) and a 2-byte message stream, with all hypotheses
discharged by evaluation. -/
theorem claim_C4_witness :
    processMessage
        (ProcState.mk (some (CAF.CAFSerializer.mk CAF_MAX_SIZE_BYTES [] [] CAF_MAX_SIZE_BYTES))
          [PendingMessage.mk 1 "t0" "f0"] true)
        (PendingMessage.mk 9 "T" "a.bin") [] 1 [5, 6] 2 true (fun _ _ => true) "bA" "bB" "w"
      = (ProcState.mk
          (some (CAF.CAFSerializer.mk 2
            [("T" ++ "/" ++ "a.bin", CAF.CAFFileMetadata.mk 0 2)] [5, 6] CAF_MAX_SIZE_BYTES))
          [PendingMessage.mk 9 "T" "a.bin"] true,
        [Event.downloadStream "a.bin", Event.startTimer]
          ++ (Event.upload "bA"
              ((CAF.CAFSerializer.mk CAF_MAX_SIZE_BYTES [] [] CAF_MAX_SIZE_BYTES).finalize.getD
                []) ::
            [PendingMessage.mk 1 "t0" "f0"].flatMap (fun m =>
              [Event.insert m.filePath m.taskId "bA" "w" true, Event.ack m.msgId]))
          ++ [Event.startTimer, Event.downloadStream "a.bin", Event.startTimer]) := by
  have hfin : (CAF.CAFSerializer.mk CAF_MAX_SIZE_BYTES [] [] CAF_MAX_SIZE_BYTES).finalize
      = some ((CAF.CAFSerializer.mk CAF_MAX_SIZE_BYTES [] [] CAF_MAX_SIZE_BYTES).finalize.getD
        []) := by decide
  exact claim_C4
    (ProcState.mk (some (CAF.CAFSerializer.mk CAF_MAX_SIZE_BYTES [] [] CAF_MAX_SIZE_BYTES))
      [PendingMessage.mk 1 "t0" "f0"] true)
    (PendingMessage.mk 9 "T" "a.bin")
    (CAF.CAFSerializer.mk CAF_MAX_SIZE_BYTES [] [] CAF_MAX_SIZE_BYTES)
    [] 1 [5, 6] 2 (fun _ _ => true) "bA" "bB" "w" _
    rfl (by decide) (by decide) (by decide) hfin

end Main

namespace WebServer

/-- C8: HTTP input validation, uniform across `/file`, `/file-info` and
`/file-proof`. With the checks applied in source order: empty (absent)
parameters give 400 with the missing-parameters error; otherwise a taskId
failing `^[a-zA-Z0-9_-]+$` gives 400 "Invalid taskId format"; otherwise a
filePath containing `..` or `~` or starting with `/` gives 400
"Invalid filePath format"; otherwise the request proceeds to the catalog
lookup. A rejected request never reaches the lookup (the `reject` outcome
carries no lookup by construction). -/
theorem claim_C8 (taskId filePath : String) :
    ((taskId.isEmpty || filePath.isEmpty) = true →
      fileRoute taskId filePath
          = .reject 400 "Missing required parameters: taskId and filePath" ∧
        fileInfoRoute taskId filePath
          = .reject 400 "Missing required parameters: taskId and filePath" ∧
        fileProofRoute taskId filePath
          = .reject 400 "Missing required parameters: taskId and filePath") ∧
    (taskId.isEmpty = false → filePath.isEmpty = false → taskIdMatches taskId = false →
      fileRoute taskId filePath = .reject 400 "Invalid taskId format" ∧
        fileInfoRoute taskId filePath = .reject 400 "Invalid taskId format" ∧
        fileProofRoute taskId filePath = .reject 400 "Invalid taskId format") ∧
    (taskId.isEmpty = false → filePath.isEmpty = false → taskIdMatches taskId = true →
      filePathRejected filePath = true →
      fileRoute taskId filePath = .reject 400 "Invalid filePath format" ∧
        fileInfoRoute taskId filePath = .reject 400 "Invalid filePath format" ∧
        fileProofRoute taskId filePath = .reject 400 "Invalid filePath format") ∧
    (taskId.isEmpty = false → filePath.isEmpty = false → taskIdMatches taskId = true →
      filePathRejected filePath = false →
      fileRoute taskId filePath = .lookup taskId filePath ∧
        fileInfoRoute taskId filePath = .lookup taskId filePath ∧
        fileProofRoute taskId filePath = .lookup taskId filePath) := by
  refine ⟨?_, ?_, ?_, ?_⟩
  · intro h
    have hv : validateParams taskId filePath
        = some (400, "Missing required parameters: taskId and filePath") := by
      rw [validateParams, if_pos (by simp_all)]
    exact ⟨by rw [fileRoute, hv], by rw [fileInfoRoute, hv], by rw [fileProofRoute, hv]⟩
  · intro h1 h2 h3
    have hv : validateParams taskId filePath = some (400, "Invalid taskId format") := by
      rw [validateParams, if_neg (by simp [h1, h2]), if_pos (by simp [h3])]
    exact ⟨by rw [fileRoute, hv], by rw [fileInfoRoute, hv], by rw [fileProofRoute, hv]⟩
  · intro h1 h2 h3 h4
    have hv : validateParams taskId filePath = some (400, "Invalid filePath format") := by
      rw [validateParams, if_neg (by simp [h1, h2]), if_neg (by simp [h3]), if_pos (by simp [h4])]
    exact ⟨by rw [fileRoute, hv], by rw [fileInfoRoute, hv], by rw [fileProofRoute, hv]⟩
  · intro h1 h2 h3 h4
    have hv : validateParams taskId filePath = none := by
      rw [validateParams, if_neg (by simp [h1, h2]), if_neg (by simp [h3]),
        if_neg (by simp [h4])]
    exact ⟨by rw [fileRoute, hv], by rw [fileInfoRoute, hv], by rw [fileProofRoute, hv]⟩

/-- C8 witness: the validation theorem applied to the spec's concrete examples:
the decoded traversal taskId `../etc` is rejected with "Invalid taskId format",
`ok` with filePath `../etc/passwd` is rejected with "Invalid filePath format",
and a clean request proceeds to the lookup. -/
theorem claim_C8_witness :
    fileRoute "../etc" "x" = .reject 400 "Invalid taskId format" ∧
    fileInfoRoute "ok" "../etc/passwd" = .reject 400 "Invalid filePath format" ∧
    fileProofRoute "ok" "good/path.txt" = .lookup "ok" "good/path.txt" :=
  ⟨((claim_C8 "../etc" "x").2.1 (by decide) (by decide) (by decide)).1,
    ((claim_C8 "ok" "../etc/passwd").2.2.1 (by decide) (by decide) (by decide)
      (by decide)).2.1,
    ((claim_C8 "ok" "good/path.txt").2.2.2 (by decide) (by decide) (by decide)
      (by decide)).2.2⟩

end WebServer

namespace Database

/-- C9 counterexample: `sanitizeS3Path` is not injective on paths — the
distinct logical keys `+` and `PLUS` map to the same object-store key `PLUS`,
so the logical key does not round-trip as the claim states. -/
theorem claim_C9_counterexample :
    sanitizeS3Path "+" = sanitizeS3Path "PLUS" ∧ "+" ≠ "PLUS" := by decide

/-- C9 (amended): `sanitizeS3Path` deterministically rewrites each forbidden
character to its word token and is applied uniformly to both object-store
reads (`downloadFile` and `downloadFileStream`) before the request is issued;
the token table itself is injective over the forbidden character set (distinct
characters get distinct tokens), but the path-level function is not injective:
a path spelling out a token collides with the path containing the forbidden
character, so logical keys do not round-trip in general. -/
theorem claim_C9_amended :
    (∀ filePath, downloadFileKey filePath = sanitizeS3Path filePath) ∧
    (∀ filePath, downloadFileStreamKey filePath = sanitizeS3Path filePath) ∧
    (∀ p1 ∈ replacements, ∀ p2 ∈ replacements, p1.2 = p2.2 → p1.1 = p2.1) ∧
    (∀ p1 ∈ replacements, ∀ p2 ∈ replacements, p1.1 = p2.1 → p1.2 = p2.2) ∧
    ¬Function.Injective sanitizeS3Path := by
  refine ⟨fun _ => rfl, fun _ => rfl, by decide, by decide, ?_⟩
  intro hinj
  have h := hinj (show sanitizeS3Path "+" = sanitizeS3Path "PLUS" by decide)
  exact absurd h (by decide)

/-- C9 witness: the amended theorem applied at concrete inputs — the keys both
read paths issue for `a+b`, and the token-table injectivity at `(+, PLUS)`. -/
theorem claim_C9_witness :
    downloadFileKey "a+b" = sanitizeS3Path "a+b" ∧
    downloadFileStreamKey "a+b" = sanitizeS3Path "a+b" ∧
    (('+', "PLUS") : Char × String).1 = (('+', "PLUS") : Char × String).1 :=
  ⟨claim_C9_amended.1 "a+b", claim_C9_amended.2.1 "a+b",
    claim_C9_amended.2.2.1 ('+', "PLUS") (by decide) ('+', "PLUS") (by decide) rfl⟩

end Database
